import Mathlib

/-! Verification of the aggregation engine, collection pipeline and navigation
state machine of git-contribution-analyzer (src/git.rs, src/app.rs,
src/main.rs), as a shallow embedding in Lean.

Modelling conventions.
* `f64` values are modelled by `F64`: a float is NaN, +infinity, or a finite
  value represented by the rational number it denotes.  Rounding is not
  modelled; NaN/infinity production and propagation is, because the safety
  claims about the sort comparators are about NaN.  All numeric inputs of this
  program are non-negative, so -0.0 and -inf never arise and a single `inf`
  suffices.
* Machine integers (`u32`, `usize`) are modelled by `Nat`; the counters in
  this program are line/commit counts far below 2^32, and no claim is about
  wrap-around.  The two places where a `usize` subtraction or index could
  panic (`App::next` / `App::previous`) are modelled explicitly with `Option`,
  `none` meaning a panic.
* Rust `HashMap` iteration order is unspecified.  Wherever the source iterates
  a map and the order is observable, the model takes the iteration sequence as
  an explicit argument, and theorems quantify over it (constrained to be a
  permutation of the map entries).  Map *lookup* and insert-if-absent are
  deterministic and are modelled by association lists.
* The external `git` invocations (the history provider) are modelled by their
  output line streams, passed in as `RepoFeeds`.  Filesystem discovery is
  modelled by its result (`Disc`). -/

namespace GitContrib

/-- Model of `f64`: NaN, +infinity, or an exact finite value. -/
inductive F64 where
  | nan : F64
  | inf : F64
  | val : ℚ → F64
deriving DecidableEq, Repr

/-- Embedding of a `u32` (or `usize`) cast `as f64`: always finite. -/
def F64.ofNat (n : Nat) : F64 := .val (n : ℚ)

/-- `f64` division.  `0.0 / 0.0` is NaN, `x / 0.0` for finite positive `x` is
+inf; finite by finite-nonzero is exact. -/
def fdiv : F64 → F64 → F64
  | .val a, .val b => if b = 0 then (if a = 0 then .nan else .inf) else .val (a / b)
  | .nan, _ => .nan
  | _, .nan => .nan
  | .inf, .inf => .nan
  | .inf, .val _ => .inf
  | .val _, .inf => .val 0

/-- `f64` multiplication (non-negative operands; `inf * 0` is NaN). -/
def fmul : F64 → F64 → F64
  | .val a, .val b => .val (a * b)
  | .nan, _ => .nan
  | _, .nan => .nan
  | .inf, .val b => if b = 0 then .nan else .inf
  | .val a, .inf => if a = 0 then .nan else .inf
  | .inf, .inf => .inf

/-- `f64` addition (non-negative operands). -/
def fadd : F64 → F64 → F64
  | .val a, .val b => .val (a + b)
  | .nan, _ => .nan
  | _, .nan => .nan
  | .inf, _ => .inf
  | _, .inf => .inf

/-- `f64` strict `<` : any comparison involving NaN is false. -/
def flt : F64 → F64 → Bool
  | .val a, .val b => decide (a < b)
  | .val _, .inf => true
  | .inf, _ => false
  | .nan, _ => false
  | .val _, .nan => false

/-- `f64::partial_cmp`: `none` exactly when an operand is NaN.  This is the
comparison whose `.unwrap()` the two sort closures in src/git.rs perform. -/
def pcmp : F64 → F64 → Option Ordering
  | .nan, _ => none
  | _, .nan => none
  | .inf, .inf => some .eq
  | .inf, .val _ => some .gt
  | .val _, .inf => some .lt
  | .val a, .val b =>
      some (if a < b then .lt else if b < a then .gt else .eq)

/-- Finiteness predicate: true for `val _`, false for NaN and infinity. -/
def F64.isVal : F64 → Bool
  | .val _ => true
  | _ => false

/-- The rational denoted by a finite float (0 for NaN/inf). -/
def F64.toQ : F64 → ℚ
  | .val q => q
  | _ => 0

/-! Parsing of the history-provider feeds (src/git.rs).

`line.split_whitespace()` splits on whitespace runs; `collect_tuple()` for a
triple succeeds only on exactly three fields; `str::parse::<u32>` accepts an
optional leading `+` followed by decimal digits, bounded by `u32::MAX`. -/

/-- Splitting a character stream on whitespace runs, accumulating the current
token in reverse. -/
def splitWhitespaceAux : List Char → List Char → List String
  | [], acc => if acc.isEmpty then [] else [String.mk acc.reverse]
  | c :: cs, acc =>
      if c.isWhitespace then
        if acc.isEmpty then splitWhitespaceAux cs []
        else String.mk acc.reverse :: splitWhitespaceAux cs []
      else splitWhitespaceAux cs (c :: acc)

/-- Rust `str::split_whitespace`, as a token list: maximal runs of
non-whitespace characters, empty tokens never produced. -/
def splitWhitespace (s : String) : List String :=
  splitWhitespaceAux s.data []

/-- Rust `str::parse::<u32>`: an optional leading `+`, then one or more
decimal digits, value bounded by `u32::MAX`. -/
def parseU32 (s : String) : Option Nat :=
  let t := match s.data with
    | '+' :: rest => rest
    | cs => cs
  if t ≠ [] ∧ t.all Char.isDigit then
    let n := t.foldl (fun acc c => acc * 10 + (c.toNat - 48)) 0
    if n < 2 ^ 32 then some n else none
  else none

/-- One numstat line: `some (added, deleted)` when the line has exactly three
whitespace-separated fields, neither count is the binary placeholder `-`, and
both parse as `u32`; otherwise the line is skipped (`none`). -/
def parseNumstatLine (line : String) : Option (Nat × Nat) :=
  match splitWhitespace line with
  | [added, deleted, _] =>
      if added ≠ "-" ∧ deleted ≠ "-" then
        match parseU32 added, parseU32 deleted with
        | some a, some d => some (a, d)
        | _, _ => none
      else none
  | _ => none

/-- Scan for the first separator character, accumulating the prefix in
reverse. -/
def splitOnceAux (sep : Char) : List Char → List Char → Option (String × String)
  | [], _ => none
  | c :: cs, acc =>
      if c = sep then some (String.mk acc.reverse, String.mk cs)
      else splitOnceAux sep cs (c :: acc)

/-- Rust `str::split_once('|')`: split at the first `|`, `none` if absent. -/
def splitOnce (s : String) : Option (String × String) :=
  splitOnceAux '|' s.data []

/-- The total-changes loop of `analyze_repository` (src/git.rs lines 66-76):
sum `added + deleted` over every parseable numstat line of the repository's
full `git log --numstat` output. -/
def totalLinesChanged (feed : List String) : Nat :=
  feed.foldl
    (fun acc l =>
      match parseNumstatLine l with
      | some (a, d) => acc + (a + d)
      | none => acc) 0

/-- The author-map loop of `analyze_repository` (src/git.rs lines 86-94):
for each `email|name` line, `entry(email).or_insert_with(name)` — keep the
name paired with the email at its first occurrence.  Modelled as an
association list in insertion order. -/
def authorMapStep (m : List (String × String)) (line : String) :
    List (String × String) :=
  match splitOnce line with
  | some (email, name) =>
      if (m.lookup email).isSome then m else m ++ [(email, name)]
  | none => m

/-- The author map built by the loop of src/git.rs lines 86-94. -/
def buildAuthorMap (feed : List String) : List (String × String) :=
  feed.foldl authorMapStep []

/-- The per-author stats loop of `analyze_repository` (src/git.rs lines
120-136): sum added and deleted over the author's own numstat lines, skipping
empty lines and unparseable lines. -/
def authorLines (stats : List String) : Nat × Nat :=
  stats.foldl
    (fun acc line =>
      if line.data.isEmpty then acc
      else
        match parseNumstatLine line with
        | some (a, d) => (acc.1 + a, acc.2 + d)
        | none => acc) (0, 0)

/-- `Contribution` (src/git.rs lines 12-21). -/
structure Contribution where
  author : String
  email : String
  commits : Nat
  lines_added : Nat
  lines_deleted : Nat
  contribution_percent : F64
  repository : String
deriving DecidableEq, Repr

/-- `AuthorSummary` (src/app.rs lines 23-33). -/
structure AuthorSummary where
  author : String
  email : String
  total_commits : Nat
  total_lines_added : Nat
  total_lines_deleted : Nat
  overall_contribution_percent : F64
  preferred_repo : String
  preferred_repo_percent : F64
deriving DecidableEq, Repr

/-- The guarded percentage computation shared by src/git.rs lines 139-143 and
196-201: `(changed as f64 / total as f64) * 100.0` when `total > 0`, else
`0.0`. -/
def percentOf (changed total : Nat) : F64 :=
  if total > 0 then fmul (fdiv (F64.ofNat changed) (F64.ofNat total)) (F64.ofNat 100)
  else F64.val 0

/-! A stable sort, modelling `slice::sort_by` (which is stable): insert each
element of the input, in order, before the first already-placed element that
must come strictly after it.  `after x y = true` means `x` has to be placed
after `y`. -/

/-- Insert `x` into `l`, walking past every `y` with `after x y`. -/
def insertStable (after : α → α → Bool) (x : α) : List α → List α
  | [] => [x]
  | y :: ys => if after x y then y :: insertStable after x ys else x :: y :: ys

/-- Stable insertion sort. -/
def sortStable (after : α → α → Bool) : List α → List α
  | [] => []
  | x :: xs => insertStable after x (sortStable after xs)

/-- Descending stable sort by an `F64` key, as performed by
`contributions.sort_by(|a, b| b.p.partial_cmp(&a.p).unwrap())`: `x` goes
after `y` exactly when `key x < key y`. -/
def sortDescBy (key : α → F64) (l : List α) : List α :=
  sortStable (fun x y => flt (key x) (key y)) l

/-- The pre-sort contribution list of `analyze_repository` (src/git.rs lines
96-154), one entry per pair of the author-map iteration sequence `order`:
commit count is the line count of the per-author `--format=%H` feed, line
counts come from the per-author numstat feed, and the percent is computed
against the repository total. -/
structure RepoFeeds where
  totalFeed : List String
  authorsFeed : List String
  commitsOf : String → List String
  statsOf : String → List String

/-- One `Contribution` record as built in the loop body (src/git.rs lines
96-154). -/
def mkContribution (f : RepoFeeds) (repoName : String) (total : Nat)
    (email name : String) : Contribution :=
  let commit_count := (f.commitsOf email).length
  let s := authorLines (f.statsOf email)
  { author := name
    email := email
    commits := commit_count
    lines_added := s.1
    lines_deleted := s.2
    contribution_percent := percentOf (s.1 + s.2) total
    repository := repoName }

/-- The contribution list before the final sort, in author-map iteration
order. -/
def repoPresort (f : RepoFeeds) (repoName : String)
    (order : List (String × String)) : List Contribution :=
  order.map fun p => mkContribution f repoName (totalLinesChanged f.totalFeed) p.1 p.2

/-- `analyze_repository` (src/git.rs lines 50-163), as a function of the
history-provider feeds.  `order` is the iteration sequence of the `author_map`
`HashMap`, unspecified in Rust; theorems that need it constrain `order` to be
a permutation of `buildAuthorMap f.authorsFeed`.  The repository-name
extraction from the path and the external process calls are outside the
model. -/
def analyze_repository (f : RepoFeeds) (repoName : String)
    (order : List (String × String)) : List Contribution :=
  sortDescBy (fun c => c.contribution_percent) (repoPresort f repoName order)

/-! Cross-repository rollup, `calculate_author_summaries`
(src/git.rs lines 165-232). -/

/-- Association-list insert with overwrite, modelling `HashMap::insert`. -/
def assocInsert (k : String) (v : β) : List (String × β) → List (String × β)
  | [] => [(k, v)]
  | (k', v') :: rest =>
      if k' = k then (k, v) :: rest else (k', v') :: assocInsert k v rest

/-- The per-email accumulator tuple of `author_data`
(src/git.rs lines 168-169). -/
structure AuthorData where
  name : String
  email : String
  commits : Nat
  added : Nat
  deleted : Nat
  repoPercents : List (String × F64)
deriving DecidableEq, Repr

/-- A fresh `author_data` entry: the zeroed tuple of `or_insert_with`
(src/git.rs line 182) after the `+=` updates of lines 184-189 are applied to
it. -/
def freshAuthor (repoName : String) (c : Contribution) : AuthorData :=
  { name := c.author
    email := c.email
    commits := c.commits
    added := c.lines_added
    deleted := c.lines_deleted
    repoPercents := [(repoName, c.contribution_percent)] }

/-- The `+=` updates of src/git.rs lines 184-189 applied to an existing
`author_data` entry. -/
def updateAuthor (repoName : String) (c : Contribution) (d : AuthorData) :
    AuthorData :=
  { d with
      commits := d.commits + c.commits
      added := d.added + c.lines_added
      deleted := d.deleted + c.lines_deleted
      repoPercents := assocInsert repoName c.contribution_percent d.repoPercents }

/-- Fold one `Contribution` into `author_data` (src/git.rs lines 172-191):
`entry(email).or_insert_with(zeroed)` then `+=` the counts and record the
per-repository percent. -/
def bumpAuthor (repoName : String) (c : Contribution) :
    List (String × AuthorData) → List (String × AuthorData)
  | [] => [(c.email, freshAuthor repoName c)]
  | (e, d) :: rest =>
      if e = c.email then (e, updateAuthor repoName c d) :: rest
      else (e, d) :: bumpAuthor repoName c rest

/-- `author_data` after the accumulation pass, keyed by email, entries in
first-seen order of the traversal of `cmap` (the `contributions_map` in its
iteration order). -/
def buildAuthorData (cmap : List (String × List Contribution)) :
    List (String × AuthorData) :=
  cmap.foldl (fun ad p => p.2.foldl (fun ad c => bumpAuthor p.1 c ad) ad) []

/-- The (repository, contribution) pairs of the contributions map, in the
order the nested loops of src/git.rs lines 172-191 traverse them. -/
def contribPairs (cmap : List (String × List Contribution)) :
    List (String × Contribution) :=
  cmap.flatMap fun p => p.2.map fun c => (p.1, c)

/-- One step of the flattened `author_data` accumulation. -/
def dataStep (ad : List (String × AuthorData)) (pc : String × Contribution) :
    List (String × AuthorData) :=
  bumpAuthor pc.1 pc.2 ad

/-- `total_lines_changed_all_repos` (src/git.rs lines 170-178): grand total of
`lines_added + lines_deleted` over every contribution of every repository. -/
def grandTotal (cmap : List (String × List Contribution)) : Nat :=
  (cmap.map fun p => (p.2.map fun c => c.lines_added + c.lines_deleted).sum).sum

/-- The preferred-repository argmax loop (src/git.rs lines 203-211), starting
from `("", 0.0)` and replacing on strictly greater percent.  The source
iterates the `repo_percentages` `HashMap` in an unspecified order that is
freshly seeded on every run, and when several repositories tie at the
author's highest percent the picked repository depends on that order.  The
model folds in insertion order as one fixed representative of the possible
orders; correspondingly, no theorem below asserts anything about *which*
tied repository is picked, and run-to-run comparisons of summaries are made
on the order-independent fields only (the preferred fields are conceded to be
iteration-order-dependent, like the order of tied rows). -/
def preferredRepo (ps : List (String × F64)) : String × F64 :=
  ps.foldl (fun best p => if flt best.2 p.2 then (p.1, p.2) else best) ("", F64.val 0)

/-- One `AuthorSummary` record (src/git.rs lines 195-222). -/
def mkSummary (gtotal : Nat) (d : AuthorData) : AuthorSummary :=
  let pref := preferredRepo d.repoPercents
  { author := d.name
    email := d.email
    total_commits := d.commits
    total_lines_added := d.added
    total_lines_deleted := d.deleted
    overall_contribution_percent := percentOf (d.added + d.deleted) gtotal
    preferred_repo := pref.1
    preferred_repo_percent := pref.2 }

/-- The summary list before the final sort: `author_data` iterated in the
sequence `keyOrder` (the `HashMap` iteration order, unspecified in Rust;
theorems that need it constrain it to a permutation of the keys). -/
def summariesPresort (cmap : List (String × List Contribution))
    (keyOrder : List String) : List AuthorSummary :=
  keyOrder.filterMap fun e =>
    ((buildAuthorData cmap).lookup e).map (mkSummary (grandTotal cmap))

/-- `calculate_author_summaries` (src/git.rs lines 165-232).  `cmap` is the
`contributions_map` in its iteration order; `keyOrder` is the iteration
sequence of the `author_data` map. -/
def calculate_author_summaries (cmap : List (String × List Contribution))
    (keyOrder : List String) : List AuthorSummary :=
  sortDescBy (fun s => s.overall_contribution_percent) (summariesPresort cmap keyOrder)

/-! Navigation state machine (src/app.rs). -/

/-- `AppState` (src/app.rs lines 4-8). -/
inductive AppState where
  | Loading : AppState
  | Main : AppState
deriving DecidableEq, Repr

/-- `App` (src/app.rs lines 10-21).  `contributions` is the `HashMap` as an
association list (only keyed lookup is performed on it here). -/
structure App where
  state : AppState
  repositories : List String
  contributions : List (String × List Contribution)
  author_summaries : List AuthorSummary
  current_tab : Nat
  selected_in_tab : List (Option Nat)
  loading_message : String
  loading_progress : Nat
  show_help : Bool
  quit : Bool
deriving DecidableEq, Repr

/-- `App::new` (src/app.rs lines 36-49). -/
def App.new : App :=
  { state := .Loading
    repositories := []
    contributions := []
    author_summaries := []
    current_tab := 0
    selected_in_tab := []
    loading_message := "Initializing..."
    loading_progress := 0
    show_help := false
    quit := false }

/-- Length of the list shown on the active tab: the summaries on the summary
tab (`current_tab >= repositories.len()`), otherwise the contribution list of
the repository named by the tab (0 when the name is not a key, matching the
`if let Some(..) = self.contributions.get(..)` guards). -/
def App.activeLen (a : App) : Nat :=
  if a.repositories.length ≤ a.current_tab then a.author_summaries.length
  else ((a.contributions.lookup (a.repositories.getD a.current_tab "")).getD []).length

/-- `App::next` (src/app.rs lines 51-81).  `none` models a panic: the
unconditional index `self.selected_in_tab[self.current_tab]` out of bounds, or
the `usize` underflow of `len() - 1` when the summary/contribution list is
empty while a row is selected.  Inside the repository branch
`self.repositories[self.current_tab]` is always in bounds (the branch
condition guarantees it), so it is rendered with `getD`. -/
def App.next (a : App) : Option App :=
  if a.repositories.length ≤ a.current_tab then
    match a.selected_in_tab.get? a.current_tab with
    | none => none
    | some (some i) =>
        if a.author_summaries.length = 0 then none
        else if a.author_summaries.length - 1 ≤ i then
          some { a with selected_in_tab := a.selected_in_tab.set a.current_tab (some 0) }
        else
          some { a with selected_in_tab := a.selected_in_tab.set a.current_tab (some (i + 1)) }
    | some none =>
        if a.author_summaries.isEmpty then some a
        else some { a with selected_in_tab := a.selected_in_tab.set a.current_tab (some 0) }
  else
    match a.selected_in_tab.get? a.current_tab with
    | none => none
    | some (some i) =>
        match a.contributions.lookup (a.repositories.getD a.current_tab "") with
        | some repo_contribs =>
            if repo_contribs.length = 0 then none
            else if repo_contribs.length - 1 ≤ i then
              some { a with selected_in_tab := a.selected_in_tab.set a.current_tab (some 0) }
            else
              some { a with selected_in_tab := a.selected_in_tab.set a.current_tab (some (i + 1)) }
        | none => some a
    | some none =>
        match a.contributions.lookup (a.repositories.getD a.current_tab "") with
        | some repo_contribs =>
            if repo_contribs.isEmpty then some a
            else some { a with selected_in_tab := a.selected_in_tab.set a.current_tab (some 0) }
        | none => some a

/-- `App::previous` (src/app.rs lines 83-113), with the same panic modelling
as `App.next`. -/
def App.previous (a : App) : Option App :=
  if a.repositories.length ≤ a.current_tab then
    match a.selected_in_tab.get? a.current_tab with
    | none => none
    | some (some i) =>
        if i = 0 then
          if a.author_summaries.length = 0 then none
          else some { a with selected_in_tab := a.selected_in_tab.set a.current_tab (some (a.author_summaries.length - 1)) }
        else some { a with selected_in_tab := a.selected_in_tab.set a.current_tab (some (i - 1)) }
    | some none =>
        if a.author_summaries.isEmpty then some a
        else some { a with selected_in_tab := a.selected_in_tab.set a.current_tab (some (a.author_summaries.length - 1)) }
  else
    match a.selected_in_tab.get? a.current_tab with
    | none => none
    | some (some i) =>
        match a.contributions.lookup (a.repositories.getD a.current_tab "") with
        | some repo_contribs =>
            if i = 0 then
              if repo_contribs.length = 0 then none
              else some { a with selected_in_tab := a.selected_in_tab.set a.current_tab (some (repo_contribs.length - 1)) }
            else some { a with selected_in_tab := a.selected_in_tab.set a.current_tab (some (i - 1)) }
        | none => some a
    | some none =>
        match a.contributions.lookup (a.repositories.getD a.current_tab "") with
        | some repo_contribs =>
            if repo_contribs.isEmpty then some a
            else some { a with selected_in_tab := a.selected_in_tab.set a.current_tab (some (repo_contribs.length - 1)) }
        | none => some a

/-- The selection shown on the active tab (`none` both when unselected and
when the selection vector is too short; the validity predicate below keeps the
two apart). -/
def App.curSel (a : App) : Option Nat :=
  a.selected_in_tab.getD a.current_tab none

/-- Row-selection validity for the active tab: a selected index is in range
of the active list. -/
def App.selOk (a : App) : Bool :=
  match a.curSel with
  | some i => decide (i < a.activeLen)
  | none => true

/-- The navigation transition table for `next`, written from the spec's words
(spec section 4.3): on an empty list stay unselected; unselected selects row
0; row `i` moves to `i + 1`, wrapping to 0 from the last row. -/
def nextSelSpec (len : Nat) : Option Nat → Option Nat
  | none => if len = 0 then none else some 0
  | some i => some (if i = len - 1 then 0 else i + 1)

/-- The navigation transition table for `previous`, from the spec's words
(spec section 4.3): on an empty list stay unselected; unselected selects the
last row; row `i` moves to `i - 1`, wrapping to the last row from row 0. -/
def prevSelSpec (len : Nat) : Option Nat → Option Nat
  | none => if len = 0 then none else some (len - 1)
  | some i => some (if i = 0 then len - 1 else i - 1)

/-! Collection pipeline (src/main.rs).

The loading thread performs a sequence of shared-state writes, each one inside
one `Mutex` critical section; the foreground loop's tick handler performs one
more kind of critical section.  An execution is an interleaving of those
atomic sections, and the foreground loop's observations are the shared states
between them. -/

/-- One critical section of the loading thread (src/main.rs lines 50-133).
`noReposTerminal` is the whole empty-discovery section, lines 63-74 (message
write, sleep and state change happen under one guard); `publish` is the final
section, lines 118-130. -/
inductive WEvent where
  | setMsg : String → WEvent
  | progress : String → Nat → WEvent
  | noReposTerminal : WEvent
  | publish : List String → List (String × List Contribution) → List AuthorSummary → WEvent
deriving DecidableEq, Repr

/-- Effect of one loading-thread critical section on the shared `App`. -/
def applyW : WEvent → App → App
  | .setMsg m, a => { a with loading_message := m }
  | .progress m p, a => { a with loading_message := m, loading_progress := p }
  | .noReposTerminal, a =>
      { a with loading_message := "No Git repositories found!", state := .Main }
  | .publish rs cm sm, a =>
      { a with
          repositories := rs
          contributions := cm
          author_summaries := sm
          selected_in_tab := List.replicate (rs.length + 1) none
          state := .Main }

/-- One atomic step of the whole process: a loading-thread critical section,
or the foreground tick handler (src/main.rs lines 214-221), which while the
state is `Loading` overwrites `loading_progress` with
`(loading_progress + 1) % 100`. -/
inductive Event where
  | tick : Event
  | work : WEvent → Event
deriving DecidableEq, Repr

/-- Effect of one atomic step on the shared state. -/
def applyE (a : App) : Event → App
  | .tick =>
      if a.state = .Loading then { a with loading_progress := (a.loading_progress + 1) % 100 }
      else a
  | .work w => applyW w a

/-- Result of repository discovery (`find_repositories`): failure, or the
discovered repositories.  Each discovered repository carries its display name
and the result of `analyze_repository` on it (`none` = analysis error). -/
structure RepoJob where
  name : String
  result : Option (String × List Contribution)
deriving DecidableEq, Repr

/-- Discovery outcome feeding the loading thread.  `keyOrder` stands for the
`author_data` iteration order used by the final rollup. -/
inductive Disc where
  | fail : Disc
  | found : List RepoJob → List String → Disc
deriving DecidableEq, Repr

/-- Ascending lexicographic sort of the repository names
(`repository_names.sort()`, src/main.rs line 114). -/
def sortStrings (l : List String) : List String :=
  sortStable (fun x y : String => decide (y < x)) l

/-- The successfully analyzed repositories, folded into `contributions_map`
(insertion with overwrite; src/main.rs lines 103-112). -/
def pubCmap (jobs : List RepoJob) : List (String × List Contribution) :=
  (jobs.filterMap RepoJob.result).foldl (fun m p => assocInsert p.1 p.2 m) []

/-- The sorted repository-name list published by the final section. -/
def pubRepos (jobs : List RepoJob) : List String :=
  sortStrings ((jobs.filterMap RepoJob.result).map Prod.fst)

/-- The per-repository progress write (src/main.rs lines 87-101):
message `Analyzing repository i/N: name` and progress `(i-1)/N*100` floored
(the `f32` arithmetic of the source is modelled as exact division; the claims
never depend on the written value). -/
def progressEvent (count idx : Nat) (name : String) : WEvent :=
  .progress
    ("Analyzing repository " ++ toString (idx + 1) ++ "/" ++ toString count ++ ": " ++ name)
    ((idx * 100) / count)

/-- The loading thread (src/main.rs lines 50-133) as its sequence of shared
state writes.  On discovery failure the `?` operator exits the thread right
after the initial message write.  On empty discovery the terminal section
runs.  Otherwise: one progress write per repository, then the single publish
of names, contribution map, summaries and the reset selection vector. -/
def workerProgram : Disc → List WEvent
  | .fail => [.setMsg "Finding Git repositories"]
  | .found [] _ => [.setMsg "Finding Git repositories", .noReposTerminal]
  | .found jobs keyOrder =>
      .setMsg "Finding Git repositories" ::
      (jobs.enum.map fun p => progressEvent jobs.length p.1 p.2.name) ++
      [.publish (pubRepos jobs) (pubCmap jobs)
        (calculate_author_summaries (pubCmap jobs) keyOrder)]

/-- A valid interleaving: `Sched ws t` holds when the loading-thread events
occurring in the step sequence `t` are an in-order prefix of the remaining
thread program `ws`; ticks may occur anywhere, and the execution may stop at
any point. -/
inductive Sched : List WEvent → List Event → Prop where
  | nil : ∀ ws, Sched ws []
  | tick : ∀ {ws t}, Sched ws t → Sched ws (.tick :: t)
  | work : ∀ {w ws t}, Sched ws t → Sched (w :: ws) (.work w :: t)

/-- The sequence of shared states the foreground loop can observe along a step
sequence, starting from `App.new`. -/
def statesOf (t : List Event) : List App :=
  t.scanl applyE App.new

/-- The terminal state of the empty-discovery path: the whole worker program
for zero repositories applied to the initial state. -/
def emptyDiscApp : App :=
  (workerProgram (.found [] [])).foldl (fun a w => applyW w a) App.new

/-! Definitions used only to state claims (spec-side). -/

/-- The display name paired with `email` at its first occurrence in the
authors feed (spec: the name associated with the email the first time it is
observed). -/
def firstSeenName (feed : List String) (email : String) : Option String :=
  feed.findSome? fun line =>
    (splitOnce line).bind fun p => if p.1 = email then some p.2 else none

/-- The author name of the first contribution carrying `email` in the
traversal order of the contributions map. -/
def firstContribName (cmap : List (String × List Contribution)) (email : String) :
    Option String :=
  cmap.findSome? fun p =>
    p.2.findSome? fun c => if c.email = email then some c.author else none

/-- Sum of the contribution percents of a list, in `f64` arithmetic. -/
def sumPercents (l : List Contribution) : F64 :=
  l.foldl (fun acc c => fadd acc c.contribution_percent) (F64.val 0)

/-- The changed-line count the per-author loop attributes to one email. -/
def authorChanged (f : RepoFeeds) (email : String) : Nat :=
  (authorLines (f.statsOf email)).1 + (authorLines (f.statsOf email)).2

/-- Descending sortedness by an `F64` key: no adjacent pair ascends. -/
def SortedDescBy (key : α → F64) (l : List α) : Prop :=
  List.Chain' (fun x y => flt (key x) (key y) = false) l

/-- The phase-and-data portion of the shared state: everything written by the
final publish section except the status message and progress counter. -/
def stateData (a : App) :
    AppState × List String × List (String × List Contribution) ×
      List AuthorSummary × List (Option Nat) :=
  (a.state, a.repositories, a.contributions, a.author_summaries, a.selected_in_tab)

/-- Loading-thread critical sections that write only the status message and
progress counter. -/
def WEvent.isBenign : WEvent → Bool
  | .setMsg _ => true
  | .progress _ _ => true
  | _ => false

/-! Concrete fixtures used by example instantiations of the theorems. -/

/-- A repository whose only numstat record is a binary placeholder: total
changed lines 0. -/
def feedsBinaryOnly : RepoFeeds :=
  { totalFeed := ["- - bin.png"]
    authorsFeed := ["a@x|A"]
    commitsOf := fun _ => ["h"]
    statsOf := fun _ => ["3 4 f"] }

/-- The spec's end-to-end example: author A contributed 80 added + 20 deleted
out of 100 total changed lines, author B contributed nothing. -/
def feedsEndToEnd : RepoFeeds :=
  { totalFeed := ["80 0 f", "0 20 g"]
    authorsFeed := ["a@x|A", "b@x|B"]
    commitsOf := fun _ => ["h"]
    statsOf := fun e => if e = "a@x" then ["80 20 f"] else [] }

/-- Two authors with the same changed-line count: equal percents. -/
def feedsTie : RepoFeeds :=
  { totalFeed := ["10 10 f"]
    authorsFeed := ["a@x|A", "b@x|B"]
    commitsOf := fun _ => ["h"]
    statsOf := fun _ => ["5 5 f"] }

/-- One email under two display names. -/
def feedsDupName : RepoFeeds :=
  { totalFeed := ["4 0 f"]
    authorsFeed := ["a@x|A", "a@x|Alias"]
    commitsOf := fun _ => ["h", "h2"]
    statsOf := fun _ => ["4 0 f"] }

/-- A contribution with no changed lines. -/
def contribZero : Contribution :=
  { author := "A", email := "a@x", commits := 1, lines_added := 0
    lines_deleted := 0, contribution_percent := F64.val 0, repository := "r" }

/-- A contribution owning all of its repository's changed lines. -/
def contribOne : Contribution :=
  { author := "A", email := "a@x", commits := 1, lines_added := 2
    lines_deleted := 0, contribution_percent := F64.val 100, repository := "r" }

/-- A second author's empty contribution in the same repository. -/
def contribTwo : Contribution :=
  { author := "B", email := "b@x", commits := 1, lines_added := 0
    lines_deleted := 0, contribution_percent := F64.val 0, repository := "r" }

/-- A summary row for `contribOne`'s author. -/
def summaryOne : AuthorSummary :=
  { author := "A", email := "a@x", total_commits := 1, total_lines_added := 2
    total_lines_deleted := 0, overall_contribution_percent := F64.val 100
    preferred_repo := "r", preferred_repo_percent := F64.val 100 }

/-- A loaded state with one repository tab of two rows and one summary row,
row 1 selected on the repository tab. -/
def appLoaded : App :=
  { App.new with
      state := .Main
      repositories := ["r"]
      contributions := [("r", [contribOne, contribTwo])]
      author_summaries := [summaryOne]
      current_tab := 0
      selected_in_tab := [some 1, none] }

/-- The one-repository job list used in pipeline examples. -/
def jobOne : RepoJob := { name := "r", result := some ("r", [contribOne]) }

/-- Two contributions in one repository with equal changed-line counts: their
authors tie at 50% overall in the rollup. -/
def tieA : Contribution :=
  { author := "A", email := "a@x", commits := 1, lines_added := 5
    lines_deleted := 0, contribution_percent := F64.val 50, repository := "r" }

/-- The second tied contribution. -/
def tieB : Contribution :=
  { author := "B", email := "b@x", commits := 1, lines_added := 5
    lines_deleted := 0, contribution_percent := F64.val 50, repository := "r" }

/-- A contributions map with two authors tied at 50% overall. -/
def cmapTie : List (String × List Contribution) := [("r", [tieA, tieB])]

/-- The accumulated `author_data` entry for `tieA`. -/
def dataA : AuthorData :=
  { name := "A", email := "a@x", commits := 1, added := 5, deleted := 0
    repoPercents := [("r", F64.val 50)] }

/-- The accumulated `author_data` entry for `tieB`. -/
def dataB : AuthorData :=
  { name := "B", email := "b@x", commits := 1, added := 5, deleted := 0
    repoPercents := [("r", F64.val 50)] }

/-! Helper lemmas: the `F64` model. -/

theorem flt_asymm : ∀ {a b : F64}, flt a b = true → flt b a = false := by
  intro a b h
  cases a <;> cases b <;> simp [flt] at h ⊢
  exact le_of_lt h

theorem flt_self (x : F64) : flt x x = false := by
  cases x <;> simp [flt]

theorem flt_ne : ∀ {a b : F64}, flt a b = true → a ≠ b := by
  intro a b h
  cases a <;> cases b <;> simp [flt] at h ⊢
  exact ne_of_lt h

theorem pcmp_isSome_of_isVal : ∀ {a b : F64},
    a.isVal = true → b.isVal = true → (pcmp a b).isSome = true := by
  intro a b ha hb
  cases a <;> cases b <;> simp [F64.isVal] at ha hb ⊢
  simp [pcmp]

theorem percentOf_zero (c : Nat) : percentOf c 0 = F64.val 0 := rfl

theorem percentOf_pos {t : Nat} (c : Nat) (h : 0 < t) :
    percentOf c t = F64.val ((c : ℚ) / (t : ℚ) * 100) := by
  have ht : ((t : ℚ)) ≠ 0 := by
    exact_mod_cast Nat.pos_iff_ne_zero.mp h
  simp [percentOf, h, F64.ofNat, fdiv, fmul, ht]

theorem percentOf_isVal (c t : Nat) : (percentOf c t).isVal = true := by
  rcases Nat.eq_zero_or_pos t with h | h
  · subst h; rfl
  · rw [percentOf_pos c h]; rfl

/-! Helper lemmas: the stable sort. -/

theorem insertStable_perm (after : α → α → Bool) (x : α) :
    ∀ l : List α, List.Perm (insertStable after x l) (x :: l) := by
  intro l
  induction l with
  | nil => exact List.Perm.refl _
  | cons y ys ih =>
    by_cases h : after x y
    · simp only [insertStable, if_pos h]
      exact (ih.cons y).trans (List.Perm.swap x y ys)
    · simp [insertStable, h]

theorem sortStable_perm (after : α → α → Bool) :
    ∀ l : List α, List.Perm (sortStable after l) l := by
  intro l
  induction l with
  | nil => exact List.Perm.refl _
  | cons x xs ih => exact (insertStable_perm after x _).trans (ih.cons x)

theorem sortDescBy_perm (key : α → F64) (l : List α) : List.Perm (sortDescBy key l) l :=
  sortStable_perm _ l

theorem head?_insertStable (after : α → α → Bool) (x : α) (l : List α) :
    (insertStable after x l).head? = some x ∨
      (insertStable after x l).head? = l.head? := by
  cases l with
  | nil => exact Or.inl rfl
  | cons y ys =>
    by_cases h : after x y
    · exact Or.inr (by simp [insertStable, h])
    · exact Or.inl (by simp [insertStable, h])

theorem chain_insertStable (after : α → α → Bool)
    (hasymm : ∀ x y, after x y = true → after y x = false) (x : α) :
    ∀ {l}, List.Chain' (fun u v => after u v = false) l →
      List.Chain' (fun u v => after u v = false) (insertStable after x l) := by
  intro l
  induction l with
  | nil => intro _; simp [insertStable]
  | cons y ys ih =>
    intro hl
    have hys : List.Chain' (fun u v => after u v = false) ys := hl.tail
    by_cases h : after x y
    · simp only [insertStable, if_pos h]
      refine List.Chain'.cons' (ih hys) ?_
      intro z hz
      rcases head?_insertStable after x ys with h1 | h1
      · rw [h1] at hz
        simp only [Option.mem_def, Option.some.injEq] at hz
        rw [← hz]
        exact hasymm x y h
      · rw [h1] at hz
        exact (List.chain'_cons'.mp hl).1 z hz
    · simp only [insertStable, if_neg h]
      exact hl.cons (by simpa using h)

theorem chain_sortStable (after : α → α → Bool)
    (hasymm : ∀ x y, after x y = true → after y x = false) :
    ∀ l : List α, List.Chain' (fun u v => after u v = false) (sortStable after l) := by
  intro l
  induction l with
  | nil => simp [sortStable]
  | cons x xs ih => exact chain_insertStable after hasymm x ih

theorem sortDescBy_sorted (key : α → F64) (l : List α) :
    SortedDescBy key (sortDescBy key l) :=
  chain_sortStable _ (fun _ _ h => flt_asymm h) l

theorem filter_insertStable (after : α → α → Bool) (p : α → Bool) (x : α)
    (hx : ∀ y, after x y = true → p x = true → p y = false) :
    ∀ l, (insertStable after x l).filter p =
      if p x then x :: l.filter p else l.filter p := by
  intro l
  induction l with
  | nil => by_cases hpx : p x <;> simp [insertStable, hpx]
  | cons y ys ih =>
    by_cases h : after x y
    · simp only [insertStable, if_pos h, List.filter_cons]
      by_cases hpx : p x
      · have hpy : p y = false := hx y h hpx
        simp [hpy, ih, hpx]
      · simp [ih, hpx]
    · simp only [insertStable, if_neg h, List.filter_cons]

theorem filter_sortStable (after : α → α → Bool) (p : α → Bool)
    (hp : ∀ x y, after x y = true → p x = true → p y = false) :
    ∀ l, (sortStable after l).filter p = l.filter p := by
  intro l
  induction l with
  | nil => rfl
  | cons x xs ih =>
    rw [sortStable, filter_insertStable after p x (fun y h h2 => hp x y h h2), ih,
      List.filter_cons]

theorem sortDescBy_filter_key (key : α → F64) (v : F64) (l : List α) :
    (sortDescBy key l).filter (fun c => decide (key c = v)) =
      l.filter (fun c => decide (key c = v)) := by
  refine filter_sortStable _ _ ?_ l
  intro x y h hx
  simp only [decide_eq_true_eq] at hx
  simp only [decide_eq_false_iff_not]
  intro hy
  exact flt_ne h (by rw [hx, hy])

/-! Helper lemmas: association lists with distinct keys. -/

theorem assoc_filter_singleton {β : Type} :
    ∀ {l : List (String × β)} {k : String} {v : β},
      (l.map Prod.fst).Nodup → l.lookup k = some v →
      l.filter (fun p => decide (p.1 = k)) = [(k, v)] := by
  intro l
  induction l with
  | nil => intro k v _ h; simp at h
  | cons p rest ih =>
    intro k v hnd h
    obtain ⟨k', v'⟩ := p
    simp only [List.map_cons, List.nodup_cons] at hnd
    by_cases hk : k = k'
    · subst hk
      rw [List.lookup_cons_self] at h
      obtain rfl : v' = v := by injection h
      have hrest : rest.filter (fun p => decide (p.1 = k)) = [] := by
        rw [List.filter_eq_nil_iff]
        intro q hq
        simp only [decide_eq_true_eq]
        intro hq1
        exact hnd.1 (hq1 ▸ List.mem_map_of_mem Prod.fst hq)
      simp [List.filter_cons, hrest]
    · simp only [List.lookup_cons, beq_false_of_ne hk] at h
      have hcond : ¬ (k' = k) := fun h2 => hk h2.symm
      simp [List.filter_cons, hcond, ih hnd.2 h]

theorem assoc_mem_keys_of_lookup {β : Type} {l : List (String × β)} {k : String}
    {v : β} (h : l.lookup k = some v) : k ∈ l.map Prod.fst := by
  have : (l.lookup k).isSome := by rw [h]; rfl
  rcases List.lookup_isSome_iff.mp this with ⟨p, hp, hk⟩
  rcases p with ⟨k', v'⟩
  simp only [beq_iff_eq] at hk
  subst hk
  exact List.mem_map_of_mem Prod.fst hp

/-! Helper lemmas: the author map of `analyze_repository`. -/

theorem authorMapStep_lookup (acc : List (String × String)) (line e : String) :
    (authorMapStep acc line).lookup e =
      (acc.lookup e).or
        (match splitOnce line with
         | some p => if p.1 = e then some p.2 else none
         | none => none) := by
  unfold authorMapStep
  cases hs : splitOnce line with
  | none => simp [Option.or_none]
  | some p =>
    obtain ⟨k, n⟩ := p
    by_cases hin : (acc.lookup k).isSome
    · simp only [if_pos hin]
      by_cases hek : k = e
      · subst hek
        rw [Option.or_of_isSome hin]
      · simp [hek, Option.or_none]
    · simp only [if_neg hin]
      rw [List.lookup_append]
      by_cases hek : k = e
      · subst hek
        simp [List.lookup_cons_self]
      · have : (e == k) = false := beq_false_of_ne (fun h2 => hek h2.symm)
        simp [List.lookup_cons, this, hek, Option.or_none]

theorem firstSeenName_cons (line : String) (rest : List String) (e : String) :
    firstSeenName (line :: rest) e =
      (match splitOnce line with
       | some p => if p.1 = e then some p.2 else none
       | none => none).or (firstSeenName rest e) := by
  unfold firstSeenName
  rw [List.findSome?_cons]
  cases hs : splitOnce line with
  | none => simp
  | some p =>
    by_cases h : p.1 = e
    · simp [h, Option.bind]
    · simp [h, Option.bind]

theorem foldl_authorMapStep_lookup :
    ∀ (feed : List String) (acc : List (String × String)) (e : String),
      (feed.foldl authorMapStep acc).lookup e =
        (acc.lookup e).or (firstSeenName feed e) := by
  intro feed
  induction feed with
  | nil =>
    intro acc e
    simp [firstSeenName, Option.or_none]
  | cons line rest ih =>
    intro acc e
    rw [List.foldl_cons, ih, firstSeenName_cons, ← Option.or_assoc,
      authorMapStep_lookup]

theorem buildAuthorMap_lookup (feed : List String) (e : String) :
    (buildAuthorMap feed).lookup e = firstSeenName feed e := by
  have := foldl_authorMapStep_lookup feed [] e
  simpa [buildAuthorMap] using this

theorem authorMapStep_keys_nodup {acc : List (String × String)} (line : String)
    (h : (acc.map Prod.fst).Nodup) :
    ((authorMapStep acc line).map Prod.fst).Nodup := by
  unfold authorMapStep
  cases hs : splitOnce line with
  | none => exact h
  | some p =>
    obtain ⟨k, n⟩ := p
    by_cases hin : (acc.lookup k).isSome
    · simpa [hin] using h
    · simp only [if_neg hin]
      have hk : k ∉ acc.map Prod.fst := by
        intro hmem
        apply hin
        rcases List.mem_map.mp hmem with ⟨q, hq, hq1⟩
        exact List.lookup_isSome_iff.mpr ⟨q, hq, by simp [hq1]⟩
      simp [List.nodup_append, h, hk]

theorem buildAuthorMap_keys_nodup (feed : List String) :
    ((buildAuthorMap feed).map Prod.fst).Nodup := by
  unfold buildAuthorMap
  have : ∀ (f : List String) (acc : List (String × String)),
      (acc.map Prod.fst).Nodup → ((f.foldl authorMapStep acc).map Prod.fst).Nodup := by
    intro f
    induction f with
    | nil => intro acc h; exact h
    | cons line rest ih => intro acc h; exact ih _ (authorMapStep_keys_nodup line h)
  exact this feed [] (by simp)

/-! Helper lemmas: the `author_data` accumulation of
`calculate_author_summaries`. -/

theorem bumpAuthor_lookup_ne (r : String) (c : Contribution) {e : String}
    (h : e ≠ c.email) :
    ∀ ad : List (String × AuthorData), (bumpAuthor r c ad).lookup e = ad.lookup e := by
  intro ad
  induction ad with
  | nil => simp [bumpAuthor, List.lookup_cons, beq_false_of_ne h]
  | cons p rest ih =>
    obtain ⟨k, d⟩ := p
    by_cases hk : k = c.email
    · subst hk
      simp [bumpAuthor, List.lookup_cons, beq_false_of_ne h]
    · simp only [bumpAuthor, if_neg hk]
      by_cases hek : e = k
      · subst hek
        simp [List.lookup_cons_self]
      · simp [List.lookup_cons, beq_false_of_ne hek, ih]

theorem bumpAuthor_lookup_self (r : String) (c : Contribution) :
    ∀ ad : List (String × AuthorData),
      (bumpAuthor r c ad).lookup c.email =
        some (match ad.lookup c.email with
              | some d => updateAuthor r c d
              | none => freshAuthor r c) := by
  intro ad
  induction ad with
  | nil => simp [bumpAuthor]
  | cons p rest ih =>
    obtain ⟨k, d⟩ := p
    by_cases hk : k = c.email
    · subst hk
      simp [bumpAuthor, List.lookup_cons_self]
    · have hne : (c.email == k) = false := beq_false_of_ne (fun h2 => hk h2.symm)
      simp [bumpAuthor, hk, List.lookup_cons, hne, ih]

theorem bumpAuthor_keys (r : String) (c : Contribution) :
    ∀ ad : List (String × AuthorData),
      (bumpAuthor r c ad).map Prod.fst =
        if (ad.lookup c.email).isSome then ad.map Prod.fst
        else ad.map Prod.fst ++ [c.email] := by
  intro ad
  induction ad with
  | nil => simp [bumpAuthor]
  | cons p rest ih =>
    obtain ⟨k, d⟩ := p
    by_cases hk : k = c.email
    · subst hk
      simp [bumpAuthor, List.lookup_cons_self]
    · have hne : (c.email == k) = false := beq_false_of_ne (fun h2 => hk h2.symm)
      simp only [bumpAuthor, if_neg hk, List.map_cons, List.lookup_cons, hne, ih]
      by_cases hr : (rest.lookup c.email).isSome <;> simp [hr]

theorem bumpAuthor_email_inv (r : String) (c : Contribution) :
    ∀ {ad : List (String × AuthorData)},
      (∀ p ∈ ad, (p.2).email = p.1) →
      ∀ p ∈ bumpAuthor r c ad, (p.2).email = p.1 := by
  intro ad
  induction ad with
  | nil =>
    intro _ p hp
    simp only [bumpAuthor, List.mem_singleton] at hp
    subst hp
    rfl
  | cons q rest ih =>
    intro hinv p hp
    obtain ⟨k, d⟩ := q
    by_cases hk : k = c.email
    · subst hk
      simp only [bumpAuthor, if_pos rfl] at hp
      rcases hp with _ | ⟨_, hp⟩
      · simpa [updateAuthor] using hinv (c.email, d) (List.mem_cons_self _ _)
      · exact hinv p (List.mem_cons_of_mem _ hp)
    · simp only [bumpAuthor, if_neg hk] at hp
      rcases hp with _ | ⟨_, hp⟩
      · exact hinv _ (List.mem_cons_self _ _)
      · exact ih (fun q hq => hinv q (List.mem_cons_of_mem _ hq)) p hp

theorem buildAuthorData_eq_foldl (cmap : List (String × List Contribution)) :
    buildAuthorData cmap = (contribPairs cmap).foldl dataStep [] := by
  have inner : ∀ (r : String) (cs : List Contribution) (acc : List (String × AuthorData)),
      cs.foldl (fun ad c => bumpAuthor r c ad) acc =
        (cs.map fun c => (r, c)).foldl dataStep acc := by
    intro r cs
    induction cs with
    | nil => intro acc; rfl
    | cons c rest ih => intro acc; simp [List.foldl_cons, dataStep, ih]
  have outer : ∀ (cm : List (String × List Contribution)) (acc : List (String × AuthorData)),
      cm.foldl (fun ad p => p.2.foldl (fun ad c => bumpAuthor p.1 c ad) ad) acc =
        (contribPairs cm).foldl dataStep acc := by
    intro cm
    induction cm with
    | nil => intro acc; rfl
    | cons p rest ih =>
      intro acc
      rw [List.foldl_cons, ih]
      unfold contribPairs
      rw [List.flatMap_cons, List.foldl_append, inner]
  exact outer cmap []

theorem firstContribName_eq_flat (cmap : List (String × List Contribution))
    (e : String) :
    firstContribName cmap e =
      (contribPairs cmap).findSome?
        (fun pc => if pc.2.email = e then some pc.2.author else none) := by
  induction cmap with
  | nil => rfl
  | cons p rest ih =>
    unfold firstContribName at ih ⊢
    unfold contribPairs at ih ⊢
    rw [List.findSome?_cons, List.flatMap_cons, List.findSome?_append, ← ih,
      List.findSome?_map]
    have : ((fun pc : String × Contribution =>
        if pc.2.email = e then some pc.2.author else none) ∘ fun c => (p.1, c)) =
        fun c : Contribution => if c.email = e then some c.author else none := rfl
    rw [this]
    cases h : p.2.findSome? fun c => if c.email = e then some c.author else none <;>
      simp [h]

theorem foldl_dataStep_lookup_name :
    ∀ (pairs : List (String × Contribution)) (acc : List (String × AuthorData))
      (e : String),
      (((pairs.foldl dataStep acc).lookup e).map AuthorData.name) =
        ((acc.lookup e).map AuthorData.name).or
          (pairs.findSome? fun pc => if pc.2.email = e then some pc.2.author else none) := by
  intro pairs
  induction pairs with
  | nil => intro acc e; simp [Option.or_none]
  | cons pc rest ih =>
    intro acc e
    rw [List.foldl_cons, ih, List.findSome?_cons]
    by_cases he : pc.2.email = e
    · cases hacc : acc.lookup e with
      | some d =>
          have h1 : (dataStep acc pc).lookup e = some (updateAuthor pc.1 pc.2 d) := by
            unfold dataStep
            subst he
            rw [bumpAuthor_lookup_self, hacc]
          simp [h1, hacc, updateAuthor, he]
      | none =>
          have h1 : (dataStep acc pc).lookup e = some (freshAuthor pc.1 pc.2) := by
            unfold dataStep
            subst he
            rw [bumpAuthor_lookup_self, hacc]
          simp [h1, hacc, freshAuthor, he]
    · have h1 : (dataStep acc pc).lookup e = acc.lookup e :=
        bumpAuthor_lookup_ne _ _ (fun h2 => he h2.symm) acc
      simp [h1, he]

theorem buildAuthorData_lookup_name (cmap : List (String × List Contribution))
    (e : String) :
    (((buildAuthorData cmap).lookup e).map AuthorData.name) = firstContribName cmap e := by
  rw [buildAuthorData_eq_foldl, foldl_dataStep_lookup_name, firstContribName_eq_flat]
  simp

theorem buildAuthorData_email (cmap : List (String × List Contribution)) :
    ∀ p ∈ buildAuthorData cmap, (p.2).email = p.1 := by
  rw [buildAuthorData_eq_foldl]
  have : ∀ (pairs : List (String × Contribution)) (acc : List (String × AuthorData)),
      (∀ p ∈ acc, (p.2).email = p.1) →
      ∀ p ∈ pairs.foldl dataStep acc, (p.2).email = p.1 := by
    intro pairs
    induction pairs with
    | nil => intro acc h; exact h
    | cons pc rest ih =>
      intro acc h
      exact ih _ (bumpAuthor_email_inv pc.1 pc.2 h)
  exact this _ [] (by simp)

theorem buildAuthorData_keys_nodup (cmap : List (String × List Contribution)) :
    ((buildAuthorData cmap).map Prod.fst).Nodup := by
  rw [buildAuthorData_eq_foldl]
  have step : ∀ (pc : String × Contribution) (acc : List (String × AuthorData)),
      (acc.map Prod.fst).Nodup → ((dataStep acc pc).map Prod.fst).Nodup := by
    intro pc acc h
    unfold dataStep
    rw [bumpAuthor_keys]
    by_cases hin : (acc.lookup pc.2.email).isSome
    · simpa [hin] using h
    · have hk : pc.2.email ∉ acc.map Prod.fst := by
        intro hmem
        apply hin
        rcases List.mem_map.mp hmem with ⟨q, hq, hq1⟩
        exact List.lookup_isSome_iff.mpr ⟨q, hq, by simp [hq1]⟩
      simp [hin, List.nodup_append, h, hk]
  have : ∀ (pairs : List (String × Contribution)) (acc : List (String × AuthorData)),
      (acc.map Prod.fst).Nodup → ((pairs.foldl dataStep acc).map Prod.fst).Nodup := by
    intro pairs
    induction pairs with
    | nil => intro acc h; exact h
    | cons pc rest ih => intro acc h; exact ih _ (step pc acc h)
  exact this _ [] (by simp)

/-! Helper lemmas: membership shapes of the two ranked lists, and percent
sums. -/

theorem mkContribution_percent (f : RepoFeeds) (rn : String) (total : Nat)
    (e n : String) :
    (mkContribution f rn total e n).contribution_percent =
      percentOf (authorChanged f e) total := rfl

theorem mem_analyze_repository {f : RepoFeeds} {repoName : String}
    {order : List (String × String)} {c : Contribution}
    (h : c ∈ analyze_repository f repoName order) :
    ∃ p ∈ order, c = mkContribution f repoName (totalLinesChanged f.totalFeed) p.1 p.2 := by
  unfold analyze_repository at h
  have h2 := (sortDescBy_perm _ _).mem_iff.mp h
  unfold repoPresort at h2
  rcases List.mem_map.mp h2 with ⟨p, hp, hc⟩
  exact ⟨p, hp, hc.symm⟩

theorem mkSummary_percent (g : Nat) (d : AuthorData) :
    (mkSummary g d).overall_contribution_percent = percentOf (d.added + d.deleted) g := rfl

theorem mem_summariesPresort {cmap : List (String × List Contribution)}
    {keyOrder : List String} {s : AuthorSummary}
    (h : s ∈ summariesPresort cmap keyOrder) :
    ∃ e ∈ keyOrder, ∃ d, (buildAuthorData cmap).lookup e = some d ∧
      s = mkSummary (grandTotal cmap) d := by
  unfold summariesPresort at h
  rcases List.mem_filterMap.mp h with ⟨e, he, hsome⟩
  cases hd : (buildAuthorData cmap).lookup e with
  | none => rw [hd] at hsome; simp at hsome
  | some d =>
    rw [hd] at hsome
    simp only [Option.map_some'] at hsome
    obtain rfl : mkSummary (grandTotal cmap) d = s := Option.some.inj hsome
    exact ⟨e, he, d, hd, rfl⟩

theorem mem_calculate_author_summaries {cmap : List (String × List Contribution)}
    {keyOrder : List String} {s : AuthorSummary}
    (h : s ∈ calculate_author_summaries cmap keyOrder) :
    ∃ e ∈ keyOrder, ∃ d, (buildAuthorData cmap).lookup e = some d ∧
      s = mkSummary (grandTotal cmap) d := by
  unfold calculate_author_summaries at h
  exact mem_summariesPresort ((sortDescBy_perm _ _).mem_iff.mp h)

theorem foldl_fadd_val :
    ∀ (l : List Contribution) (q0 : ℚ),
      (∀ c ∈ l, (c.contribution_percent).isVal = true) →
      l.foldl (fun acc c => fadd acc c.contribution_percent) (F64.val q0) =
        F64.val (q0 + (l.map fun c => (c.contribution_percent).toQ).sum) := by
  intro l
  induction l with
  | nil => intro q0 _; simp
  | cons c rest ih =>
    intro q0 h
    have hc := h c (List.mem_cons_self _ _)
    obtain ⟨qc, hqc⟩ : ∃ qc, c.contribution_percent = F64.val qc := by
      cases hcp : c.contribution_percent <;> rw [hcp] at hc <;>
        simp [F64.isVal] at hc ⊢
    rw [List.foldl_cons, hqc]
    have hstep : fadd (F64.val q0) (F64.val qc) = F64.val (q0 + qc) := rfl
    rw [hstep, ih (q0 + qc) (fun x hx => h x (List.mem_cons_of_mem _ hx))]
    simp only [List.map_cons, List.sum_cons, hqc, F64.toQ]
    congr 1
    ring

theorem sumPercents_eq (l : List Contribution)
    (h : ∀ c ∈ l, (c.contribution_percent).isVal = true) :
    sumPercents l = F64.val ((l.map fun c => (c.contribution_percent).toQ).sum) := by
  unfold sumPercents
  rw [foldl_fadd_val l 0 h]
  congr 1
  ring

theorem sumPercents_sortDescBy (l : List Contribution)
    (h : ∀ c ∈ l, (c.contribution_percent).isVal = true) :
    sumPercents (sortDescBy (fun c => c.contribution_percent) l) = sumPercents l := by
  have hperm := sortDescBy_perm (fun c => c.contribution_percent) l
  have h2 : ∀ c ∈ sortDescBy (fun c => c.contribution_percent) l,
      (c.contribution_percent).isVal = true :=
    fun c hc => h c (hperm.mem_iff.mp hc)
  rw [sumPercents_eq _ h2, sumPercents_eq _ h]
  congr 1
  exact (hperm.map _).sum_eq

/-! Helper lemmas: evaluation of `App.next` / `App.previous` on valid
states. -/

theorem next_eval (a : App)
    (hlen : a.selected_in_tab.length = a.repositories.length + 1)
    (htab : a.current_tab ≤ a.repositories.length)
    (hsel : a.selOk = true) :
    (App.next a).map (fun x => x.selected_in_tab.getD a.current_tab none) =
      some (nextSelSpec a.activeLen a.curSel) := by
  have hidx : a.current_tab < a.selected_in_tab.length := by omega
  obtain ⟨v, hv⟩ : ∃ v, a.selected_in_tab.get? a.current_tab = some v := by
    cases hv : a.selected_in_tab.get? a.current_tab with
    | none => exact absurd (List.get?_eq_none.mp hv) (by omega)
    | some v => exact ⟨v, rfl⟩
  have hcur : a.curSel = v := by
    unfold App.curSel
    rw [List.getD_eq_get?, hv]
    rfl
  have hset : ∀ w : Option Nat,
      (a.selected_in_tab.set a.current_tab w).getD a.current_tab none = w := by
    intro w
    rw [List.getD_eq_get?, List.get?_set_eq_of_lt _ hidx]
    rfl
  have hgd : a.selected_in_tab.getD a.current_tab none = a.curSel := rfl
  by_cases hge : a.repositories.length ≤ a.current_tab
  · have hact : a.activeLen = a.author_summaries.length := by
      unfold App.activeLen
      rw [if_pos hge]
    cases v with
    | none =>
      by_cases hemp : a.author_summaries.isEmpty
      · have hnil : a.author_summaries.length = 0 := by
          simpa [List.isEmpty_iff] using hemp
        have hres : App.next a = some a := by
          unfold App.next
          rw [if_pos hge, hv]
          simp [hemp]
        rw [hres]
        simp only [Option.map_some', hgd, hcur, nextSelSpec, hact, hnil]
        simp
      · have hnz : ¬ a.author_summaries.length = 0 := by
          simpa [List.isEmpty_iff, List.length_eq_zero] using hemp
        have hres : App.next a =
            some { a with selected_in_tab := a.selected_in_tab.set a.current_tab (some 0) } := by
          unfold App.next
          rw [if_pos hge, hv]
          simp [hemp]
        rw [hres]
        simp only [Option.map_some', hset, hcur, nextSelSpec, hact]
        simp [hnz]
    | some i =>
      have hi : i < a.author_summaries.length := by
        have h2 := hsel
        unfold App.selOk at h2
        rw [hcur] at h2
        simpa [hact] using h2
      have hnz : ¬ a.author_summaries.length = 0 := by omega
      by_cases hlast : a.author_summaries.length - 1 ≤ i
      · have hres : App.next a =
            some { a with selected_in_tab := a.selected_in_tab.set a.current_tab (some 0) } := by
          unfold App.next
          rw [if_pos hge, hv]
          simp [hnz, hlast]
        rw [hres]
        simp only [Option.map_some', hset, hcur, nextSelSpec, hact]
        have : i = a.author_summaries.length - 1 := by omega
        simp [this]
      · have hres : App.next a =
            some { a with selected_in_tab := a.selected_in_tab.set a.current_tab (some (i + 1)) } := by
          unfold App.next
          rw [if_pos hge, hv]
          simp [hnz, hlast]
        rw [hres]
        simp only [Option.map_some', hset, hcur, nextSelSpec, hact]
        have : ¬ i = a.author_summaries.length - 1 := by omega
        simp [this]
  · have hactd : a.activeLen =
        ((a.contributions.lookup (a.repositories[a.current_tab]?.getD "")).getD []).length := by
      unfold App.activeLen
      rw [if_neg hge, List.getD_eq_getElem?_getD]
    cases hlk : a.contributions.lookup (a.repositories[a.current_tab]?.getD "") with
    | none =>
      have hact0 : a.activeLen = 0 := by rw [hactd, hlk]; rfl
      cases v with
      | none =>
        have hres : App.next a = some a := by
          unfold App.next
          rw [if_neg hge, hv]
          simp [hlk]
        rw [hres]
        simp only [Option.map_some', hgd, hcur, nextSelSpec, hact0]
        simp
      | some i =>
        exfalso
        have h2 := hsel
        unfold App.selOk at h2
        rw [hcur] at h2
        simp [hact0] at h2
    | some rc =>
      have hactrc : a.activeLen = rc.length := by rw [hactd, hlk]; rfl
      cases v with
      | none =>
        by_cases hemp : rc.isEmpty
        · have hnil : rc.length = 0 := by simpa [List.isEmpty_iff] using hemp
          have hres : App.next a = some a := by
            unfold App.next
            rw [if_neg hge, hv]
            simp [hlk, hemp]
          rw [hres]
          simp only [Option.map_some', hgd, hcur, nextSelSpec, hactrc, hnil]
          simp
        · have hnz : ¬ rc.length = 0 := by
            simpa [List.isEmpty_iff, List.length_eq_zero] using hemp
          have hres : App.next a =
              some { a with selected_in_tab := a.selected_in_tab.set a.current_tab (some 0) } := by
            unfold App.next
            rw [if_neg hge, hv]
            simp [hlk, hemp]
          rw [hres]
          simp only [Option.map_some', hset, hcur, nextSelSpec, hactrc]
          simp [hnz]
      | some i =>
        have hi : i < rc.length := by
          have h2 := hsel
          unfold App.selOk at h2
          rw [hcur] at h2
          simpa [hactrc] using h2
        have hnz : ¬ rc.length = 0 := by omega
        by_cases hlast : rc.length - 1 ≤ i
        · have hres : App.next a =
              some { a with selected_in_tab := a.selected_in_tab.set a.current_tab (some 0) } := by
            unfold App.next
            rw [if_neg hge, hv]
            simp [hlk, hnz, hlast]
          rw [hres]
          simp only [Option.map_some', hset, hcur, nextSelSpec, hactrc]
          have : i = rc.length - 1 := by omega
          simp [this]
        · have hres : App.next a =
              some { a with selected_in_tab := a.selected_in_tab.set a.current_tab (some (i + 1)) } := by
            unfold App.next
            rw [if_neg hge, hv]
            simp [hlk, hnz, hlast]
          rw [hres]
          simp only [Option.map_some', hset, hcur, nextSelSpec, hactrc]
          have : ¬ i = rc.length - 1 := by omega
          simp [this]

theorem prev_eval (a : App)
    (hlen : a.selected_in_tab.length = a.repositories.length + 1)
    (htab : a.current_tab ≤ a.repositories.length)
    (hsel : a.selOk = true) :
    (App.previous a).map (fun x => x.selected_in_tab.getD a.current_tab none) =
      some (prevSelSpec a.activeLen a.curSel) := by
  have hidx : a.current_tab < a.selected_in_tab.length := by omega
  obtain ⟨v, hv⟩ : ∃ v, a.selected_in_tab.get? a.current_tab = some v := by
    cases hv : a.selected_in_tab.get? a.current_tab with
    | none => exact absurd (List.get?_eq_none.mp hv) (by omega)
    | some v => exact ⟨v, rfl⟩
  have hcur : a.curSel = v := by
    unfold App.curSel
    rw [List.getD_eq_get?, hv]
    rfl
  have hset : ∀ w : Option Nat,
      (a.selected_in_tab.set a.current_tab w).getD a.current_tab none = w := by
    intro w
    rw [List.getD_eq_get?, List.get?_set_eq_of_lt _ hidx]
    rfl
  have hgd : a.selected_in_tab.getD a.current_tab none = a.curSel := rfl
  by_cases hge : a.repositories.length ≤ a.current_tab
  · have hact : a.activeLen = a.author_summaries.length := by
      unfold App.activeLen
      rw [if_pos hge]
    cases v with
    | none =>
      by_cases hemp : a.author_summaries.isEmpty
      · have hnil : a.author_summaries.length = 0 := by
          simpa [List.isEmpty_iff] using hemp
        have hres : App.previous a = some a := by
          unfold App.previous
          rw [if_pos hge, hv]
          simp [hemp]
        rw [hres]
        simp only [Option.map_some', hgd, hcur, prevSelSpec, hact, hnil]
        simp
      · have hnz : ¬ a.author_summaries.length = 0 := by
          simpa [List.isEmpty_iff, List.length_eq_zero] using hemp
        have hres : App.previous a =
            some { a with selected_in_tab :=
              a.selected_in_tab.set a.current_tab (some (a.author_summaries.length - 1)) } := by
          unfold App.previous
          rw [if_pos hge, hv]
          simp [hemp]
        rw [hres]
        simp only [Option.map_some', hset, hcur, prevSelSpec, hact]
        simp [hnz]
    | some i =>
      have hi : i < a.author_summaries.length := by
        have h2 := hsel
        unfold App.selOk at h2
        rw [hcur] at h2
        simpa [hact] using h2
      have hnz : ¬ a.author_summaries.length = 0 := by omega
      by_cases hi0 : i = 0
      · have hres : App.previous a =
            some { a with selected_in_tab :=
              a.selected_in_tab.set a.current_tab (some (a.author_summaries.length - 1)) } := by
          unfold App.previous
          rw [if_pos hge, hv]
          simp [hi0, hnz]
        rw [hres]
        simp only [Option.map_some', hset, hcur, prevSelSpec, hact]
        simp [hi0]
      · have hres : App.previous a =
            some { a with selected_in_tab :=
              a.selected_in_tab.set a.current_tab (some (i - 1)) } := by
          unfold App.previous
          rw [if_pos hge, hv]
          simp [hi0]
        rw [hres]
        simp only [Option.map_some', hset, hcur, prevSelSpec, hact]
        simp [hi0]
  · have hactd : a.activeLen =
        ((a.contributions.lookup (a.repositories[a.current_tab]?.getD "")).getD []).length := by
      unfold App.activeLen
      rw [if_neg hge, List.getD_eq_getElem?_getD]
    cases hlk : a.contributions.lookup (a.repositories[a.current_tab]?.getD "") with
    | none =>
      have hact0 : a.activeLen = 0 := by rw [hactd, hlk]; rfl
      cases v with
      | none =>
        have hres : App.previous a = some a := by
          unfold App.previous
          rw [if_neg hge, hv]
          simp [hlk]
        rw [hres]
        simp only [Option.map_some', hgd, hcur, prevSelSpec, hact0]
        simp
      | some i =>
        exfalso
        have h2 := hsel
        unfold App.selOk at h2
        rw [hcur] at h2
        simp [hact0] at h2
    | some rc =>
      have hactrc : a.activeLen = rc.length := by rw [hactd, hlk]; rfl
      cases v with
      | none =>
        by_cases hemp : rc.isEmpty
        · have hnil : rc.length = 0 := by simpa [List.isEmpty_iff] using hemp
          have hres : App.previous a = some a := by
            unfold App.previous
            rw [if_neg hge, hv]
            simp [hlk, hemp]
          rw [hres]
          simp only [Option.map_some', hgd, hcur, prevSelSpec, hactrc, hnil]
          simp
        · have hnz : ¬ rc.length = 0 := by
            simpa [List.isEmpty_iff, List.length_eq_zero] using hemp
          have hres : App.previous a =
              some { a with selected_in_tab :=
                a.selected_in_tab.set a.current_tab (some (rc.length - 1)) } := by
            unfold App.previous
            rw [if_neg hge, hv]
            simp [hlk, hemp]
          rw [hres]
          simp only [Option.map_some', hset, hcur, prevSelSpec, hactrc]
          simp [hnz]
      | some i =>
        have hi : i < rc.length := by
          have h2 := hsel
          unfold App.selOk at h2
          rw [hcur] at h2
          simpa [hactrc] using h2
        have hnz : ¬ rc.length = 0 := by omega
        by_cases hi0 : i = 0
        · have hres : App.previous a =
              some { a with selected_in_tab :=
                a.selected_in_tab.set a.current_tab (some (rc.length - 1)) } := by
            unfold App.previous
            rw [if_neg hge, hv]
            simp [hlk, hi0, hnz]
          rw [hres]
          simp only [Option.map_some', hset, hcur, prevSelSpec, hactrc]
          simp [hi0]
        · have hres : App.previous a =
              some { a with selected_in_tab :=
                a.selected_in_tab.set a.current_tab (some (i - 1)) } := by
            unfold App.previous
            rw [if_neg hge, hv]
            simp [hlk, hi0]
          rw [hres]
          simp only [Option.map_some', hset, hcur, prevSelSpec, hactrc]
          simp [hi0]

/-! Helper lemmas: the collection pipeline. -/

theorem stateData_tick (a : App) : stateData (applyE a .tick) = stateData a := by
  unfold applyE stateData
  by_cases h : a.state = AppState.Loading <;> simp [h]

theorem stateData_benign {w : WEvent} (h : w.isBenign = true) (a : App) :
    stateData (applyW w a) = stateData a := by
  cases w <;> simp [WEvent.isBenign] at h <;> simp [applyW, stateData]

theorem workerProgram_found_cons (j : RepoJob) (js : List RepoJob) (ko : List String) :
    workerProgram (.found (j :: js) ko) =
      (WEvent.setMsg "Finding Git repositories" ::
        ((j :: js).enum.map fun p => progressEvent (j :: js).length p.1 p.2.name)) ++
      [WEvent.publish (pubRepos (j :: js)) (pubCmap (j :: js))
        (calculate_author_summaries (pubCmap (j :: js)) ko)] := rfl

theorem workerProgram_found_cons_benign (j : RepoJob) (js : List RepoJob) :
    ∀ w ∈ (WEvent.setMsg "Finding Git repositories" ::
        ((j :: js).enum.map fun p => progressEvent (j :: js).length p.1 p.2.name)),
      w.isBenign = true := by
  intro w hw
  rcases List.mem_cons.mp hw with rfl | hw
  · rfl
  · rcases List.mem_map.mp hw with ⟨p, _, rfl⟩
    rfl

theorem sched_nil_ticks {t : List Event} (h : Sched [] t) : ∀ e ∈ t, e = Event.tick := by
  generalize hws : ([] : List WEvent) = ws at h
  induction h with
  | nil => intro e he; simp at he
  | tick _ ih =>
    intro e he
    rcases List.mem_cons.mp he with rfl | he
    · rfl
    · exact ih hws e he
  | work _ _ => exact absurd hws (by simp)

theorem scanl_ticks_const : ∀ (t : List Event), (∀ e ∈ t, e = Event.tick) →
    ∀ (a : App), a.state = AppState.Main → ∀ s ∈ t.scanl applyE a, s = a := by
  intro t
  induction t with
  | nil =>
    intro _ a _ s hs
    simpa [List.scanl] using hs
  | cons e t' ih =>
    intro hticks a ha s hs
    have he : e = Event.tick := hticks e (List.mem_cons_self _ _)
    subst he
    have hstep : applyE a Event.tick = a := by
      unfold applyE
      simp [ha]
    rw [List.scanl_cons, hstep] at hs
    rcases List.mem_append.mp hs with h1 | h1
    · simpa using h1
    · exact ih (fun e he' => hticks e (List.mem_cons_of_mem _ he')) a ha s h1

theorem pipeline_core (R : List String) (C : List (String × List Contribution))
    (S : List AuthorSummary) :
    ∀ {ws : List WEvent} {t : List Event}, Sched ws t →
    ∀ a : App,
      (∃ pre, ws = pre ++ [WEvent.publish R C S] ∧ ∀ w ∈ pre, w.isBenign = true) →
      a.state = AppState.Loading →
      (∀ s ∈ t.scanl applyE a,
        s.state = AppState.Main →
          s.repositories = R ∧ s.contributions = C ∧ s.author_summaries = S ∧
            s.selected_in_tab = List.replicate (R.length + 1) none) ∧
      (∃ k m, (t.scanl applyE a).map App.state =
        List.replicate k AppState.Loading ++ List.replicate m AppState.Main) := by
  intro ws t h
  induction h with
  | nil ws =>
    intro a _ ha
    constructor
    · intro s hs hsm
      simp only [List.scanl] at hs
      rcases List.mem_singleton.mp hs with rfl
      rw [ha] at hsm
      exact absurd hsm (by decide)
    · exact ⟨1, 0, by simp [List.scanl, ha]⟩
  | tick _ ih =>
    intro a hpre ha
    have ha' : (applyE a Event.tick).state = AppState.Loading := by
      unfold applyE
      simp [ha]
    obtain ⟨h1, k, m, hshape⟩ := ih (applyE a Event.tick) hpre ha'
    constructor
    · intro s hs hsm
      rw [List.scanl_cons] at hs
      rcases List.mem_append.mp hs with h2 | h2
      · rcases List.mem_singleton.mp h2 with rfl
        rw [ha] at hsm
        exact absurd hsm (by decide)
      · exact h1 s h2 hsm
    · refine ⟨k + 1, m, ?_⟩
      rw [List.scanl_cons]
      simp only [List.map_append, List.map_singleton, ha, hshape, List.replicate_succ]
      rfl
  | work hsch ih =>
    rename_i w ws2 t2
    intro a hpre ha
    obtain ⟨pre, hws, hben⟩ := hpre
    cases pre with
    | nil =>
      simp only [List.nil_append] at hws
      injection hws with hw hws2
      subst hw
      subst hws2
      have happ : applyE a (Event.work (WEvent.publish R C S)) =
          applyW (WEvent.publish R C S) a := rfl
      constructor
      · intro s hs hsm
        rw [List.scanl_cons, happ] at hs
        rcases List.mem_append.mp hs with h2 | h2
        · rcases List.mem_singleton.mp h2 with rfl
          rw [ha] at hsm
          exact absurd hsm (by decide)
        · have hsa := scanl_ticks_const _ (sched_nil_ticks hsch)
            (applyW (WEvent.publish R C S) a) rfl s h2
          rw [hsa]
          exact ⟨rfl, rfl, rfl, rfl⟩
      · rw [List.scanl_cons, happ]
        refine ⟨1, (List.scanl applyE (applyW (WEvent.publish R C S) a) t2).length, ?_⟩
        simp only [List.map_append, List.map_singleton, ha]
        congr 1
        refine List.eq_replicate.mpr ⟨by rw [List.length_map], ?_⟩
        intro x hx
        rcases List.mem_map.mp hx with ⟨s, hs, rfl⟩
        rw [scanl_ticks_const _ (sched_nil_ticks hsch) _ rfl s hs]
        rfl
    | cons w2 pre' =>
      simp only [List.cons_append] at hws
      injection hws with hw hws2
      subst hw
      have hb : WEvent.isBenign w = true := hben w (List.mem_cons_self _ _)
      have hsd := stateData_benign hb a
      have ha' : (applyW w a).state = AppState.Loading := by
        have h3 := congrArg Prod.fst hsd
        simp only [stateData] at h3
        rw [h3, ha]
      have happ : applyE a (Event.work w) = applyW w a := rfl
      obtain ⟨h1, k, m, hshape⟩ := ih (applyW w a)
        ⟨pre', hws2, fun x hx => hben x (List.mem_cons_of_mem _ hx)⟩ ha'
      constructor
      · intro s hs hsm
        rw [List.scanl_cons, happ] at hs
        rcases List.mem_append.mp hs with h2 | h2
        · rcases List.mem_singleton.mp h2 with rfl
          rw [ha] at hsm
          exact absurd hsm (by decide)
        · exact h1 s h2 hsm
      · refine ⟨k + 1, m, ?_⟩
        rw [List.scanl_cons, happ]
        simp only [List.map_append, List.map_singleton, ha, hshape, List.replicate_succ]
        rfl

theorem applyE_tick_state (a : App) : (applyE a Event.tick).state = a.state := by
  unfold applyE
  by_cases h : a.state = AppState.Loading <;> simp [h]

theorem scanl_ticks_state : ∀ (t : List Event), (∀ e ∈ t, e = Event.tick) →
    ∀ (a : App), ∀ s ∈ t.scanl applyE a, s.state = a.state := by
  intro t
  induction t with
  | nil =>
    intro _ a s hs
    rw [show s = a by simpa [List.scanl] using hs]
  | cons e t' ih =>
    intro hticks a s hs
    have he : e = Event.tick := hticks e (List.mem_cons_self _ _)
    subst he
    rw [List.scanl_cons] at hs
    rcases List.mem_append.mp hs with h1 | h1
    · rw [show s = a by simpa using h1]
    · rw [ih (fun x hx => hticks x (List.mem_cons_of_mem _ hx)) _ s h1]
      exact applyE_tick_state a

theorem mem_of_lookup {β : Type} {l : List (String × β)} {k : String} {v : β}
    (h : l.lookup k = some v) : (k, v) ∈ l := by
  rcases List.lookup_eq_some_iff.mp h with ⟨l₁, l₂, rfl, _⟩
  exact List.mem_append.mpr (Or.inr (List.mem_cons_self _ _))

theorem filter_summariesPresort (cmap : List (String × List Contribution))
    (e : String) :
    ∀ ko : List String,
      (summariesPresort cmap ko).filter (fun s => decide (s.email = e)) =
        (ko.filter (fun k => decide (k = e))).filterMap
          (fun k => ((buildAuthorData cmap).lookup k).map (mkSummary (grandTotal cmap))) := by
  intro ko
  induction ko with
  | nil => rfl
  | cons k rest ih =>
    unfold summariesPresort at ih ⊢
    by_cases hk : k = e
    · subst hk
      cases hg : ((buildAuthorData cmap).lookup k) with
      | none => simp [List.filterMap_cons, List.filter_cons, hg, ih]
      | some d =>
        have hse : (mkSummary (grandTotal cmap) d).email = k :=
          buildAuthorData_email cmap (k, d) (mem_of_lookup hg)
        simp [List.filterMap_cons, List.filter_cons, hg, hse, ih]
    · cases hg : ((buildAuthorData cmap).lookup k) with
      | none => simp [List.filterMap_cons, List.filter_cons, hg, hk, ih]
      | some d =>
        have hse : (mkSummary (grandTotal cmap) d).email = k :=
          buildAuthorData_email cmap (k, d) (mem_of_lookup hg)
        simp [List.filterMap_cons, List.filter_cons, hg, hse, hk, ih]

/-! The claims. -/

/-- C1: for every repository whose total changed-line count is 0, every
author's contribution percent is exactly 0, and for every contributions map
whose grand total of added+deleted is 0, every author's overall contribution
percent is exactly 0 — neither computation divides (the guarded branch
returns the literal 0.0). -/
theorem C1_zero_total_zero_percent :
    (∀ (f : RepoFeeds) (repoName : String) (order : List (String × String)),
        totalLinesChanged f.totalFeed = 0 →
        ∀ c ∈ analyze_repository f repoName order,
          c.contribution_percent = F64.val 0) ∧
    (∀ (cmap : List (String × List Contribution)) (keyOrder : List String),
        grandTotal cmap = 0 →
        ∀ s ∈ calculate_author_summaries cmap keyOrder,
          s.overall_contribution_percent = F64.val 0) := by
  constructor
  · intro f rn order h0 c hc
    rcases mem_analyze_repository hc with ⟨p, _, rfl⟩
    rw [mkContribution_percent, h0]
    exact percentOf_zero _
  · intro cmap ko h0 s hs
    rcases mem_calculate_author_summaries hs with ⟨e, _, d, _, rfl⟩
    rw [mkSummary_percent, h0]
    exact percentOf_zero _

theorem C1_witness :
    (totalLinesChanged feedsBinaryOnly.totalFeed = 0 ∧
     ∀ c ∈ analyze_repository feedsBinaryOnly "r" [("a@x", "A")],
       c.contribution_percent = F64.val 0) ∧
    (grandTotal [("r", [contribZero])] = 0 ∧
     ∀ s ∈ calculate_author_summaries [("r", [contribZero])] ["a@x"],
       s.overall_contribution_percent = F64.val 0) :=
  ⟨⟨by decide, fun c hc =>
      C1_zero_total_zero_percent.1 feedsBinaryOnly "r" [("a@x", "A")] (by decide) c hc⟩,
   ⟨by decide, fun s hs =>
      C1_zero_total_zero_percent.2 [("r", [contribZero])] ["a@x"] (by decide) s hs⟩⟩

/-- C2 counterexample: the claim that two runs on identical input yield
bit-identical output lists fails.  Each run iterates a freshly seeded
`author_data` `HashMap` in its own order; with two authors tied at 50%
overall, the iteration sequences `[a@x, b@x]` and `[b@x, a@x]` — both legal
orders of the same map contents, certified below as permutations of its key
list — produce output lists whose tied entries appear in different orders. -/
theorem C2_counterexample :
    List.Perm ["a@x", "b@x"] ((buildAuthorData cmapTie).map Prod.fst) ∧
    List.Perm ["b@x", "a@x"] ((buildAuthorData cmapTie).map Prod.fst) ∧
    ¬ (calculate_author_summaries cmapTie ["a@x", "b@x"] =
        calculate_author_summaries cmapTie ["b@x", "a@x"]) := by
  refine ⟨by decide, by decide, ?_⟩
  have hgt : grandTotal cmapTie = 10 := by decide
  have hla : (buildAuthorData cmapTie).lookup "a@x" = some dataA := by decide
  have hlb : (buildAuthorData cmapTie).lookup "b@x" = some dataB := by decide
  have hfa : freshAuthor "r" tieA = dataA := by decide
  have hfb : freshAuthor "r" tieB = dataB := by decide
  have hpa : (mkSummary 10 dataA).overall_contribution_percent = percentOf 5 10 := rfl
  have hpb : (mkSummary 10 dataB).overall_contribution_percent = percentOf 5 10 := rfl
  have hfltAB : flt (mkSummary 10 dataA).overall_contribution_percent
      (mkSummary 10 dataB).overall_contribution_percent = false := by
    rw [hpa, hpb]
    exact flt_self _
  have hfltBA : flt (mkSummary 10 dataB).overall_contribution_percent
      (mkSummary 10 dataA).overall_contribution_percent = false := by
    rw [hpa, hpb]
    exact flt_self _
  have e1 : calculate_author_summaries cmapTie ["a@x", "b@x"] =
      [mkSummary 10 dataA, mkSummary 10 dataB] := by
    unfold calculate_author_summaries summariesPresort
    rw [hgt]
    simp [List.filterMap_cons, hla, hlb, hfa, hfb, sortDescBy, sortStable, insertStable,
      hfltAB]
  have e2 : calculate_author_summaries cmapTie ["b@x", "a@x"] =
      [mkSummary 10 dataB, mkSummary 10 dataA] := by
    unfold calculate_author_summaries summariesPresort
    rw [hgt]
    simp [List.filterMap_cons, hla, hlb, hfa, hfb, sortDescBy, sortStable, insertStable,
      hfltBA]
  rw [e1, e2]
  intro h
  have h3 := congrArg (fun l => l.map AuthorSummary.email) h
  simp [mkSummary, dataA, dataB] at h3

/-- C2 (amended): `calculate_author_summaries` mutates nothing and its output
is a function of the contributions map together with the iteration sequences
of the freshly built `author_data` and `repo_percentages` maps.  Those
sequences are freshly seeded each run, so bit-identical output across runs is
not guaranteed: entries tied on overall percent may appear in different
orders, and tied preferred-repository picks may differ.  What is
run-invariant is the content up to those ties: for any two iteration
sequences of the same author_data contents, the two runs produce the same
multiset of summary rows on the order-independent fields (author name, email,
total commits, lines added, lines deleted, overall percent). -/
theorem C2_run_invariant_content (cmap : List (String × List Contribution))
    (ko₁ ko₂ : List String) (h : List.Perm ko₁ ko₂) :
    List.Perm
      ((calculate_author_summaries cmap ko₁).map fun s =>
        (s.author, s.email, s.total_commits, s.total_lines_added,
          s.total_lines_deleted, s.overall_contribution_percent))
      ((calculate_author_summaries cmap ko₂).map fun s =>
        (s.author, s.email, s.total_commits, s.total_lines_added,
          s.total_lines_deleted, s.overall_contribution_percent)) := by
  have h1 : List.Perm (summariesPresort cmap ko₁) (summariesPresort cmap ko₂) :=
    h.filterMap _
  have h2 : List.Perm (calculate_author_summaries cmap ko₁) (summariesPresort cmap ko₁) :=
    sortDescBy_perm _ _
  have h3 : List.Perm (calculate_author_summaries cmap ko₂) (summariesPresort cmap ko₂) :=
    sortDescBy_perm _ _
  exact (h2.trans (h1.trans h3.symm)).map _

theorem C2_witness :
    List.Perm
      ((calculate_author_summaries cmapTie ["a@x", "b@x"]).map fun s =>
        (s.author, s.email, s.total_commits, s.total_lines_added,
          s.total_lines_deleted, s.overall_contribution_percent))
      ((calculate_author_summaries cmapTie ["b@x", "a@x"]).map fun s =>
        (s.author, s.email, s.total_commits, s.total_lines_added,
          s.total_lines_deleted, s.overall_contribution_percent)) :=
  C2_run_invariant_content cmapTie ["a@x", "b@x"] ["b@x", "a@x"] (by decide)

/-- C3 (amended): each produced list is sorted descending by its percent
field, and equal-percent entries preserve the pre-sort order — which is the
map-iteration order (`order` / `keyOrder`), not in general the order in which
the authors were first encountered. -/
theorem C3_sorted_ties_iteration_order :
    (∀ (f : RepoFeeds) (repoName : String) (order : List (String × String)),
        SortedDescBy (fun c => c.contribution_percent)
          (analyze_repository f repoName order) ∧
        ∀ v : F64,
          (analyze_repository f repoName order).filter
              (fun c => decide (c.contribution_percent = v)) =
            (repoPresort f repoName order).filter
              (fun c => decide (c.contribution_percent = v))) ∧
    (∀ (cmap : List (String × List Contribution)) (keyOrder : List String),
        SortedDescBy (fun s => s.overall_contribution_percent)
          (calculate_author_summaries cmap keyOrder) ∧
        ∀ v : F64,
          (calculate_author_summaries cmap keyOrder).filter
              (fun s => decide (s.overall_contribution_percent = v)) =
            (summariesPresort cmap keyOrder).filter
              (fun s => decide (s.overall_contribution_percent = v))) := by
  constructor
  · intro f rn order
    exact ⟨sortDescBy_sorted _ _, fun v => sortDescBy_filter_key _ v _⟩
  · intro cmap ko
    exact ⟨sortDescBy_sorted _ _, fun v => sortDescBy_filter_key _ v _⟩

/-- C3 counterexample: with authors A then B first encountered in that order
and equal percents (50% each), a legitimate map-iteration order that yields B
first makes the tied entries come out B before A: the output's tied block is
not the first-encountered order (which `buildAuthorMap` records). -/
theorem C3_counterexample :
    List.Perm ([("b@x", "B"), ("a@x", "A")] : List (String × String))
      (buildAuthorMap feedsTie.authorsFeed) ∧
    ¬ ((analyze_repository feedsTie "r" [("b@x", "B"), ("a@x", "A")]).filter
          (fun c => decide (c.contribution_percent = F64.val 50)) =
        (repoPresort feedsTie "r" (buildAuthorMap feedsTie.authorsFeed)).filter
          (fun c => decide (c.contribution_percent = F64.val 50))) := by
  constructor
  · decide
  · have hacA : authorChanged feedsTie "a@x" = 10 := by decide
    have hacB : authorChanged feedsTie "b@x" = 10 := by decide
    have hp : percentOf (10 : Nat) (totalLinesChanged feedsTie.totalFeed) = F64.val 50 := by
      have htot : totalLinesChanged feedsTie.totalFeed = 20 := by decide
      rw [htot, percentOf_pos _ (by norm_num)]
      congr 1
      norm_num
    have hpA : (mkContribution feedsTie "r" (totalLinesChanged feedsTie.totalFeed)
        "a@x" "A").contribution_percent = F64.val 50 := by
      rw [mkContribution_percent, hacA]
      exact hp
    have hpB : (mkContribution feedsTie "r" (totalLinesChanged feedsTie.totalFeed)
        "b@x" "B").contribution_percent = F64.val 50 := by
      rw [mkContribution_percent, hacB]
      exact hp
    have hfltBA : flt (mkContribution feedsTie "r" (totalLinesChanged feedsTie.totalFeed)
          "b@x" "B").contribution_percent
        (mkContribution feedsTie "r" (totalLinesChanged feedsTie.totalFeed)
          "a@x" "A").contribution_percent = false := by
      rw [mkContribution_percent, mkContribution_percent, hacA, hacB]
      exact flt_self _
    have e1 : analyze_repository feedsTie "r" [("b@x", "B"), ("a@x", "A")] =
        [mkContribution feedsTie "r" (totalLinesChanged feedsTie.totalFeed) "b@x" "B",
         mkContribution feedsTie "r" (totalLinesChanged feedsTie.totalFeed) "a@x" "A"] := by
      unfold analyze_repository repoPresort
      simp [sortDescBy, sortStable, insertStable, hfltBA]
    have hbm : buildAuthorMap feedsTie.authorsFeed = [("a@x", "A"), ("b@x", "B")] := by
      decide
    have e2 : repoPresort feedsTie "r" (buildAuthorMap feedsTie.authorsFeed) =
        [mkContribution feedsTie "r" (totalLinesChanged feedsTie.totalFeed) "a@x" "A",
         mkContribution feedsTie "r" (totalLinesChanged feedsTie.totalFeed) "b@x" "B"] := by
      unfold repoPresort
      rw [hbm]
      simp
    rw [e1, e2]
    simp only [List.filter_cons, hpA, hpB, decide_eq_true_eq, if_pos, List.filter_nil]
    intro h
    have h3 := congrArg (fun l => l.map Contribution.email) h
    simp [mkContribution] at h3

/-- C5: for a repository with total changed lines > 0 whose per-author
records partition the total feed (the history-provider contract), the sum of
all contribution percents in the produced list is exactly 100. -/
theorem C5_percent_sum_100 (f : RepoFeeds) (repoName : String)
    (order : List (String × String))
    (hpos : 0 < totalLinesChanged f.totalFeed)
    (hsum : (order.map fun p => authorChanged f p.1).sum = totalLinesChanged f.totalFeed) :
    sumPercents (analyze_repository f repoName order) = F64.val 100 := by
  have hvals : ∀ c ∈ repoPresort f repoName order,
      (c.contribution_percent).isVal = true := by
    intro c hc
    rcases List.mem_map.mp hc with ⟨p, _, rfl⟩
    rw [mkContribution_percent]
    exact percentOf_isVal _ _
  unfold analyze_repository
  rw [sumPercents_sortDescBy _ hvals, sumPercents_eq _ hvals]
  have hTQ : ((totalLinesChanged f.totalFeed : ℚ)) ≠ 0 := by
    exact_mod_cast Nat.pos_iff_ne_zero.mp hpos
  have hmap : (repoPresort f repoName order).map
        (fun c => (c.contribution_percent).toQ) =
      order.map (fun p => ((authorChanged f p.1 : ℚ)) *
        (100 / (totalLinesChanged f.totalFeed : ℚ))) := by
    unfold repoPresort
    rw [List.map_map]
    apply List.map_congr_left
    intro p _
    simp only [Function.comp_apply]
    rw [mkContribution_percent, percentOf_pos _ hpos]
    show ((authorChanged f p.1 : ℚ) / (totalLinesChanged f.totalFeed : ℚ) * 100) = _
    field_simp
  rw [hmap, List.sum_map_mul_right]
  have hcast : (order.map fun p => ((authorChanged f p.1 : ℚ))).sum =
      ((totalLinesChanged f.totalFeed : ℕ) : ℚ) := by
    rw [← hsum, Nat.cast_list_sum, List.map_map]
    rfl
  rw [hcast]
  field_simp

theorem C5_witness :
    0 < totalLinesChanged feedsEndToEnd.totalFeed ∧
    sumPercents (analyze_repository feedsEndToEnd "repo"
      (buildAuthorMap feedsEndToEnd.authorsFeed)) = F64.val 100 :=
  ⟨by decide,
   C5_percent_sum_100 feedsEndToEnd "repo" (buildAuthorMap feedsEndToEnd.authorsFeed)
     (by decide) (by decide)⟩

/-- C10: the percent fields compared by the two sort closures are never NaN —
every contribution percent and every overall summary percent is a finite
value (0 or a quotient with strictly positive divisor times 100) — and
`partial_cmp` is defined (`isSome`) on any two finite values, so the
`.unwrap()` in both comparators never panics. -/
theorem C10_comparators_never_nan :
    (∀ (f : RepoFeeds) (repoName : String) (order : List (String × String)),
        ∀ c ∈ analyze_repository f repoName order,
          (c.contribution_percent).isVal = true) ∧
    (∀ (cmap : List (String × List Contribution)) (keyOrder : List String),
        ∀ s ∈ calculate_author_summaries cmap keyOrder,
          (s.overall_contribution_percent).isVal = true) ∧
    (∀ a b : F64, a.isVal = true → b.isVal = true → (pcmp a b).isSome = true) := by
  refine ⟨?_, ?_, fun a b ha hb => pcmp_isSome_of_isVal ha hb⟩
  · intro f rn order c hc
    rcases mem_analyze_repository hc with ⟨p, _, rfl⟩
    rw [mkContribution_percent]
    exact percentOf_isVal _ _
  · intro cmap ko s hs
    rcases mem_calculate_author_summaries hs with ⟨e, _, d, _, rfl⟩
    rw [mkSummary_percent]
    exact percentOf_isVal _ _

theorem C10_witness :
    (pcmp (F64.val 0) (F64.val 100)).isSome = true :=
  C10_comparators_never_nan.2.2 (F64.val 0) (F64.val 100) rfl rfl

/-- C4: an email appearing under several display names yields exactly one
consolidated Contribution per repository and exactly one AuthorSummary across
repositories, and in both the display name is the one paired with the email
the first time it is observed by the traversal (insert-if-absent map
semantics). -/
theorem C4_dedup_first_seen :
    (∀ (f : RepoFeeds) (repoName : String) (order : List (String × String)),
        List.Perm order (buildAuthorMap f.authorsFeed) →
        ∀ e n : String, firstSeenName f.authorsFeed e = some n →
        ((analyze_repository f repoName order).filter
            (fun c => decide (c.email = e))).map Contribution.author = [n]) ∧
    (∀ (cmap : List (String × List Contribution)) (keyOrder : List String),
        List.Perm keyOrder ((buildAuthorData cmap).map Prod.fst) →
        ∀ e n : String, firstContribName cmap e = some n →
        ((calculate_author_summaries cmap keyOrder).filter
            (fun s => decide (s.email = e))).map AuthorSummary.author = [n]) := by
  constructor
  · intro f rn order hord e n hfs
    have hlk : (buildAuthorMap f.authorsFeed).lookup e = some n := by
      rw [buildAuthorMap_lookup]
      exact hfs
    have hbam : (buildAuthorMap f.authorsFeed).filter (fun p => decide (p.1 = e)) =
        [(e, n)] :=
      assoc_filter_singleton (buildAuthorMap_keys_nodup _) hlk
    have hpre : (repoPresort f rn order).filter (fun c => decide (c.email = e)) =
        (order.filter (fun p => decide (p.1 = e))).map
          (fun p => mkContribution f rn (totalLinesChanged f.totalFeed) p.1 p.2) := by
      unfold repoPresort
      rw [List.filter_map]
      rfl
    have hperm1 : List.Perm
        ((analyze_repository f rn order).filter (fun c => decide (c.email = e)))
        ((repoPresort f rn order).filter (fun c => decide (c.email = e))) :=
      List.Perm.filter _ (sortDescBy_perm _ _)
    have hperm2 : List.Perm (order.filter (fun p => decide (p.1 = e)))
        ([(e, n)] : List (String × String)) := by
      rw [← hbam]
      exact hord.filter _
    have hchain : List.Perm
        ((analyze_repository f rn order).filter (fun c => decide (c.email = e)))
        [mkContribution f rn (totalLinesChanged f.totalFeed) e n] := by
      rw [hpre] at hperm1
      exact hperm1.trans (hperm2.map _)
    rw [hchain.eq_singleton]
    rfl
  · intro cmap ko hko e n hfc
    obtain ⟨d, hd, hdn⟩ : ∃ d, (buildAuthorData cmap).lookup e = some d ∧ d.name = n := by
      have hb := buildAuthorData_lookup_name cmap e
      rw [hfc] at hb
      cases hl : (buildAuthorData cmap).lookup e with
      | none => rw [hl] at hb; simp at hb
      | some d =>
        rw [hl] at hb
        simp only [Option.map_some'] at hb
        exact ⟨d, rfl, Option.some.inj hb⟩
    have hmem : e ∈ (buildAuthorData cmap).map Prod.fst := assoc_mem_keys_of_lookup hd
    have hcnt : List.count e ko = 1 := by
      rw [hko.count_eq]
      exact List.count_eq_one_of_mem (buildAuthorData_keys_nodup cmap) hmem
    have hfe : ko.filter (fun k => decide (k = e)) = [e] := by
      rw [List.filter_eq, hcnt]
      rfl
    have hps2 : (summariesPresort cmap ko).filter (fun s => decide (s.email = e)) =
        [mkSummary (grandTotal cmap) d] := by
      rw [filter_summariesPresort cmap e ko, hfe]
      simp [List.filterMap_cons, hd]
    have hsing : (calculate_author_summaries cmap ko).filter
        (fun s => decide (s.email = e)) = [mkSummary (grandTotal cmap) d] := by
      unfold calculate_author_summaries
      have h1 := List.Perm.filter (fun s => decide (s.email = e))
        (sortDescBy_perm (fun s => s.overall_contribution_percent)
          (summariesPresort cmap ko))
      rw [hps2] at h1
      exact h1.eq_singleton
    rw [hsing]
    simp [mkSummary, hdn]

theorem C4_witness :
    firstSeenName feedsDupName.authorsFeed "a@x" = some "A" ∧
    ((analyze_repository feedsDupName "r"
        (buildAuthorMap feedsDupName.authorsFeed)).filter
      (fun c => decide (c.email = "a@x"))).map Contribution.author = ["A"] :=
  ⟨by decide,
   C4_dedup_first_seen.1 feedsDupName "r" (buildAuthorMap feedsDupName.authorsFeed)
     (List.Perm.refl _) "a@x" "A" (by decide)⟩

/-- C6 counterexample: a legal interleaving in which the foreground loop
observes `loading_progress` decrease.  The foreground's own tick handler has
incremented the counter to 2 (it wraps modulo 100 while the state is
`Loading`) when the worker's first per-repository progress write resets it to
0: the observed sequence is 0, 1, 2, 2, 0, which is not monotonically
non-decreasing. -/
theorem C6_counterexample :
    Sched (workerProgram (Disc.found [jobOne] []))
      [Event.tick, Event.tick, Event.work (WEvent.setMsg "Finding Git repositories"),
        Event.work (progressEvent 1 0 "r")] ∧
    ¬ List.Chain' (fun x y => x ≤ y)
      ((statesOf [Event.tick, Event.tick,
          Event.work (WEvent.setMsg "Finding Git repositories"),
          Event.work (progressEvent 1 0 "r")]).map App.loading_progress) := by
  constructor
  · exact Sched.tick (Sched.tick (Sched.work (Sched.work (Sched.nil _))))
  · have hm : (statesOf [Event.tick, Event.tick,
        Event.work (WEvent.setMsg "Finding Git repositories"),
        Event.work (progressEvent 1 0 "r")]).map App.loading_progress =
        [0, 1, 2, 2, 0] := by decide
    rw [hm]
    intro h
    simp [List.chain'_cons] at h

/-- C6 (amended): monotonic progress does not hold — the foreground tick
handler wraps the counter modulo 100 and the worker's writes can lower it —
but the phase protocol does: along every valid interleaving of the non-empty
pipeline, the observed state sequence is a block of `Loading` states followed
by a block of `Main` states (so the Loading-to-Main transition is observed at
most once, and exactly once when the schedule reaches the publish), and every
observed `Main` state carries the complete published data — repositories,
contributions, summaries and the reset per-tab selection all from the single
final publish section. -/
theorem C6_phase_one_way_publish_atomic (jobs : List RepoJob) (ko : List String)
    (hne : jobs ≠ []) :
    (∀ t : List Event, Sched (workerProgram (.found jobs ko)) t →
      (∀ s ∈ statesOf t, s.state = AppState.Main →
        s.repositories = pubRepos jobs ∧ s.contributions = pubCmap jobs ∧
        s.author_summaries = calculate_author_summaries (pubCmap jobs) ko ∧
        s.selected_in_tab = List.replicate ((pubRepos jobs).length + 1) none) ∧
      (∃ k m, (statesOf t).map App.state =
        List.replicate k AppState.Loading ++ List.replicate m AppState.Main)) ∧
    ((workerProgram (.found jobs ko)).foldl (fun a w => applyW w a) App.new).state =
      AppState.Main := by
  obtain ⟨j, js, rfl⟩ : ∃ j js, jobs = j :: js := by
    cases jobs with
    | nil => exact absurd rfl hne
    | cons j js => exact ⟨j, js, rfl⟩
  constructor
  · intro t ht
    exact pipeline_core (pubRepos (j :: js)) (pubCmap (j :: js))
      (calculate_author_summaries (pubCmap (j :: js)) ko) ht App.new
      ⟨_, workerProgram_found_cons j js ko, workerProgram_found_cons_benign j js⟩ rfl
  · rw [workerProgram_found_cons, List.foldl_append]
    rfl

theorem C6_witness :
    ((workerProgram (Disc.found [jobOne] [])).foldl (fun a w => applyW w a)
      App.new).state = AppState.Main :=
  (C6_phase_one_way_publish_atomic [jobOne] [] (by decide)).2

/-- C7 counterexample: when discovery itself fails, the loading thread exits
through the `?` operator right after its initial status write; it never
reaches the "no repositories found" terminal section, so the shared state
keeps the initial message and stays in the `Loading` phase — it does not
degrade to the terminal state. -/
theorem C7_counterexample :
    ((workerProgram Disc.fail).foldl (fun a w => applyW w a) App.new).state =
      AppState.Loading ∧
    ((workerProgram Disc.fail).foldl (fun a w => applyW w a) App.new).loading_message ≠
      "No Git repositories found!" := by
  constructor
  · rfl
  · decide

/-- C7 (amended): only an *empty* discovery result degrades to the
"no repositories found" terminal state (message set, phase `Main`, data
empty); when discovery itself fails, the worker performs no further writes
and the app remains in the `Loading` phase forever — every state the
foreground can subsequently observe is still `Loading`. -/
theorem C7_discovery_outcomes :
    (emptyDiscApp.state = AppState.Main ∧
     emptyDiscApp.loading_message = "No Git repositories found!" ∧
     emptyDiscApp.repositories = [] ∧ emptyDiscApp.contributions = [] ∧
     emptyDiscApp.author_summaries = []) ∧
    (((workerProgram Disc.fail).foldl (fun a w => applyW w a) App.new).loading_message =
      "Finding Git repositories" ∧
     ∀ t : List Event, Sched [] t →
       ∀ s ∈ t.scanl applyE
           ((workerProgram Disc.fail).foldl (fun a w => applyW w a) App.new),
         s.state = AppState.Loading) := by
  refine ⟨⟨rfl, rfl, rfl, rfl, rfl⟩, rfl, ?_⟩
  intro t ht s hs
  rw [scanl_ticks_state t (sched_nil_ticks ht) _ s hs]
  rfl

theorem C7_witness :
    (applyE ((workerProgram Disc.fail).foldl (fun a w => applyW w a) App.new)
      Event.tick).state = AppState.Loading :=
  C7_discovery_outcomes.2.2 [Event.tick] (Sched.tick (Sched.nil _)) _ (by decide)

/-- C8: on a valid App state (selection vector of length repositories+1,
active tab in range, any selected row in range of the active list), `next`
and `previous` behave exactly as the spec's transition table: empty active
list leaves the selection unselected; unselected selects row 0 (`next`) or
the last row (`previous`); a selected row moves by one and wraps at the
ends. -/
theorem C8_row_navigation (a : App)
    (hlen : a.selected_in_tab.length = a.repositories.length + 1)
    (htab : a.current_tab ≤ a.repositories.length)
    (hsel : a.selOk = true) :
    (App.next a).map (fun x => x.selected_in_tab.getD a.current_tab none) =
      some (nextSelSpec a.activeLen a.curSel) ∧
    (App.previous a).map (fun x => x.selected_in_tab.getD a.current_tab none) =
      some (prevSelSpec a.activeLen a.curSel) :=
  ⟨next_eval a hlen htab hsel, prev_eval a hlen htab hsel⟩

theorem C8_witness :
    (App.next appLoaded).map
        (fun x => x.selected_in_tab.getD appLoaded.current_tab none) =
      some (nextSelSpec appLoaded.activeLen appLoaded.curSel) ∧
    (App.previous appLoaded).map
        (fun x => x.selected_in_tab.getD appLoaded.current_tab none) =
      some (prevSelSpec appLoaded.activeLen appLoaded.curSel) :=
  C8_row_navigation appLoaded (by decide) (by decide) (by decide)

/-- C9: `App.next` / `App.previous` are panic-free exactly under the validity
precondition (selection vector of length repositories+1, active tab in range,
selected index in range): under it both return `some`; the state published by
the empty-discovery path violates it (`selected_in_tab` is still the initial
empty vector while the state is `Main`), and there a key press panics — both
functions return `none` (an out-of-bounds index on
`selected_in_tab[current_tab]`). -/
theorem C9_panic_freedom_precondition :
    (∀ a : App, a.selected_in_tab.length = a.repositories.length + 1 →
        a.current_tab ≤ a.repositories.length → a.selOk = true →
        (App.next a).isSome = true ∧ (App.previous a).isSome = true) ∧
    emptyDiscApp.state = AppState.Main ∧
    ¬ emptyDiscApp.selected_in_tab.length = emptyDiscApp.repositories.length + 1 ∧
    App.next emptyDiscApp = none ∧ App.previous emptyDiscApp = none := by
  refine ⟨?_, rfl, by decide, rfl, rfl⟩
  intro a h1 h2 h3
  constructor
  · have h4 := next_eval a h1 h2 h3
    cases hn : App.next a with
    | none => rw [hn] at h4; simp at h4
    | some x => rfl
  · have h4 := prev_eval a h1 h2 h3
    cases hn : App.previous a with
    | none => rw [hn] at h4; simp at h4
    | some x => rfl

theorem C9_witness :
    (App.next appLoaded).isSome = true ∧ (App.previous appLoaded).isSome = true :=
  C9_panic_freedom_precondition.1 appLoaded (by decide) (by decide) (by decide)

end GitContrib
